import Mathlib

/-!
Verification development for the CxxUrl library (`src/url.hpp`).

The library stores a URL either as a raw text (`m_url`) or as a decomposed
field set (`m_scheme`, `m_user`, `m_host`, `m_port`, `m_path`, `m_query`,
`m_fragment`, `m_ip_v`), with two freshness flags `m_parse` (fields are
current) and `m_built` (raw text is current).  The header `url.hpp` contains
the cache-flag logic, the `KeyVal` query entry type and all inline member
functions; those are embedded here directly from the source.  The private
implementations `Url::parse_url`, `Url::build_url` and the field setters are
only declared in the header (their translation unit is not part of the
sources), so they are modelled from the specification, as marked in the
doc comments below.
-/

namespace CxxUrl

/-! ## Character classes (spec 4.4, RFC 3986 tables) -/

/-- Unreserved characters: ALPHA, DIGIT, `-`, `.`, `_`, `~`. -/
def isUnreserved (c : Char) : Bool :=
  c.isAlpha || c.isDigit || c == '-' || c == '.' || c == '_' || c == '~'

/-- RFC 3986 sub-delimiters `! $ & ' ( ) * + , ; =` (the apostrophe written
by code point). -/
def isSubDelim (c : Char) : Bool :=
  c == '!' || c == '$' || c == '&' || c.toNat == 39 || c == '(' || c == ')' ||
  c == '*' || c == '+' || c == ',' || c == ';' || c == '='

/-- Allowed unescaped in user_info: unreserved, sub-delims and `:`. -/
def userAllow (c : Char) : Bool := isUnreserved c || isSubDelim c || c == ':'

/-- Allowed unescaped in a registered-name host: unreserved and sub-delims
(the RFC 3986 reg-name table, per spec 9 open question 2). -/
def hostAllow (c : Char) : Bool := isUnreserved c || isSubDelim c

/-- Allowed unescaped in the path: unreserved, sub-delims, `/`, `:`, `@`. -/
def pathAllow (c : Char) : Bool :=
  isUnreserved c || isSubDelim c || c == '/' || c == ':' || c == '@'

/-- Allowed unescaped in the query: unreserved, sub-delims except `&` and
`=`, plus `/` and `?`. -/
def queryAllow (c : Char) : Bool :=
  isUnreserved c || (isSubDelim c && !(c == '&') && !(c == '=')) || c == '/' || c == '?'

/-- Allowed unescaped in the fragment: unreserved, sub-delims, `/`, `?`. -/
def fragAllow (c : Char) : Bool := isUnreserved c || isSubDelim c || c == '/' || c == '?'

/-! ## Hex digits and percent escapes -/

/-- Hexadecimal digit test (both cases). -/
def isHexDigitChar (c : Char) : Bool :=
  c.isDigit || ('a' ≤ c && c ≤ 'f') || ('A' ≤ c && c ≤ 'F')

/-- Numeric value of a hexadecimal digit. -/
def hexVal (c : Char) : Nat :=
  if c.isDigit then c.toNat - 48
  else if 'a' ≤ c && c ≤ 'f' then c.toNat - 87
  else c.toNat - 55

/-- Upper-case hexadecimal digit for a value below 16. -/
def hexDigitChar (n : Nat) : Char :=
  if n < 10 then Char.ofNat (48 + n) else Char.ofNat (55 + n)

/-- Percent-decode a character list: `%XX` becomes the byte `XX`; a `%` not
followed by two hex digits is a parse failure (spec 4.4). -/
def percentDecode : List Char → Option (List Char)
  | [] => some []
  | c :: rest =>
    if c == '%' then
      match rest with
      | a :: b :: rest2 =>
        if isHexDigitChar a && isHexDigitChar b then
          (percentDecode rest2).map (fun l => Char.ofNat (16 * hexVal a + hexVal b) :: l)
        else none
      | _ => none
    else (percentDecode rest).map (fun l => c :: l)

/-- Encoding of a single character: kept when allowed, otherwise `%` and two
upper-case hex digits of its byte value (spec 4.4). -/
def percentEncodeChar (allow : Char → Bool) (c : Char) : List Char :=
  if allow c then [c]
  else '%' :: hexDigitChar (c.toNat / 16 % 16) :: hexDigitChar (c.toNat % 16) :: []

/-- Percent-encode a character list under a component allow-list. -/
def percentEncode (allow : Char → Bool) : List Char → List Char
  | [] => []
  | c :: rest => percentEncodeChar allow c ++ percentEncode allow rest

/-- Every character of a byte string has code point below 256. -/
def byteChars (l : List Char) : Prop := ∀ c ∈ l, c.toNat < 256

instance (l : List Char) : Decidable (byteChars l) := by
  unfold byteChars; infer_instance

theorem hexDigitChar_isHex {n : Nat} (h : n < 16) :
    isHexDigitChar (hexDigitChar n) = true := by
  interval_cases n <;> decide

theorem hexVal_hexDigitChar {n : Nat} (h : n < 16) : hexVal (hexDigitChar n) = n := by
  interval_cases n <;> decide

theorem hexDigitChar_ne_percent {n : Nat} (h : n < 16) : hexDigitChar n ≠ '%' := by
  interval_cases n <;> decide

/-- A hex digit emitted by the encoder is a digit or an upper-case letter
`A`–`F`; in particular it is not one of the URL delimiters. -/
theorem hexDigitChar_class {n : Nat} (h : n < 16) :
    (hexDigitChar n).isDigit = true ∨ ('A' ≤ hexDigitChar n ∧ hexDigitChar n ≤ 'F') := by
  interval_cases n <;> first | exact Or.inl (by decide) | exact Or.inr (by decide)

theorem percentDecode_nil : percentDecode [] = some [] := rfl

theorem percentDecode_cons_ne {c : Char} (hc : (c == '%') = false) (rest : List Char) :
    percentDecode (c :: rest) = (percentDecode rest).map (fun l => c :: l) := by
  cases rest with
  | nil => simp [percentDecode, hc]
  | cons a tl =>
    cases tl with
    | nil => simp [percentDecode, hc]
    | cons b tl2 => simp [percentDecode, hc]

theorem percentDecode_esc {a b : Char} (ha : isHexDigitChar a = true)
    (hb : isHexDigitChar b = true) (rest : List Char) :
    percentDecode ('%' :: a :: b :: rest) =
      (percentDecode rest).map (fun l => Char.ofNat (16 * hexVal a + hexVal b) :: l) := by
  simp [percentDecode, ha, hb]

/-- Decoding inverts encoding on byte strings, for any allow-list that
escapes `%` itself. -/
theorem percentDecode_percentEncode (allow : Char → Bool) (hp : allow '%' = false)
    (l : List Char) (hb : byteChars l) :
    percentDecode (percentEncode allow l) = some l := by
  induction l with
  | nil => rfl
  | cons c rest ih =>
    have hbrest : byteChars rest := fun x hx => hb x (List.mem_cons_of_mem _ hx)
    have hc : c.toNat < 256 := hb c (List.mem_cons_self _ _)
    by_cases hac : allow c
    · have hcp : (c == '%') = false := by
        by_cases h : c = '%'
        · subst h
          simp [hp] at hac
        · simp [h]
      simp only [percentEncode, percentEncodeChar, hac, if_pos, List.singleton_append]
      rw [percentDecode_cons_ne hcp, ih hbrest]
      rfl
    · have h1 : c.toNat / 16 % 16 < 16 := Nat.mod_lt _ (by norm_num)
      have h2 : c.toNat % 16 < 16 := Nat.mod_lt _ (by norm_num)
      simp only [percentEncode, percentEncodeChar, hac, if_neg, Bool.false_eq_true,
        not_false_iff, List.cons_append, List.nil_append]
      rw [percentDecode_esc (hexDigitChar_isHex h1) (hexDigitChar_isHex h2), ih hbrest]
      have hdiv : c.toNat / 16 < 16 := by omega
      have hmod : c.toNat / 16 % 16 = c.toNat / 16 := Nat.mod_eq_of_lt hdiv
      rw [hexVal_hexDigitChar h1, hexVal_hexDigitChar h2, hmod]
      have hval : 16 * (c.toNat / 16) + c.toNat % 16 = c.toNat := by omega
      rw [hval]
      simp [Char.ofNat_toNat]

/-- Every character the encoder emits is either allowed, or `%`, or an
upper-case hex digit. -/
theorem mem_percentEncode {allow : Char → Bool} {c : Char} {l : List Char}
    (h : c ∈ percentEncode allow l) :
    allow c = true ∨ c = '%' ∨ (c.isDigit = true ∨ ('A' ≤ c ∧ c ≤ 'F')) := by
  induction l with
  | nil => simp [percentEncode] at h
  | cons d rest ih =>
    simp only [percentEncode, List.mem_append] at h
    rcases h with h | h
    · by_cases had : allow d
      · simp [percentEncodeChar, had] at h
        subst h
        exact Or.inl had
      · simp [percentEncodeChar, had] at h
        rcases h with h | h | h
        · exact Or.inr (Or.inl h)
        · subst h
          exact Or.inr (Or.inr (hexDigitChar_class (Nat.mod_lt _ (by norm_num))))
        · subst h
          exact Or.inr (Or.inr (hexDigitChar_class (Nat.mod_lt _ (by norm_num))))
    · exact ih h

/-- An encoder output containing no `%` is the verbatim input, every
character of which was allowed. -/
theorem percentEncode_no_escape {allow : Char → Bool} {l : List Char}
    (h : '%' ∉ percentEncode allow l) :
    percentEncode allow l = l ∧ ∀ c ∈ l, allow c = true := by
  induction l with
  | nil => exact ⟨rfl, by simp⟩
  | cons c rest ih =>
    by_cases hac : allow c
    · have hrest : '%' ∉ percentEncode allow rest := by
        intro hmem
        exact h (by simp [percentEncode, percentEncodeChar, hac, hmem])
      obtain ⟨he, ha⟩ := ih hrest
      refine ⟨by simp [percentEncode, percentEncodeChar, hac, he], ?_⟩
      intro d hd
      rcases List.mem_cons.mp hd with rfl | hd
      · exact hac
      · exact ha d hd
    · exfalso
      exact h (by simp [percentEncode, percentEncodeChar, hac])

/-! ## List splitting helpers -/

theorem takeWhile_all_eq {α : Type} (p : α → Bool) (xs : List α)
    (h : ∀ c ∈ xs, p c = true) : xs.takeWhile p = xs := by
  induction xs with
  | nil => rfl
  | cons c rest ih =>
    simp [List.takeWhile, h c (List.mem_cons_self _ _)]
    exact fun x hx => h x (List.mem_cons_of_mem _ hx)

theorem dropWhile_all_eq {α : Type} (p : α → Bool) (xs : List α)
    (h : ∀ c ∈ xs, p c = true) : xs.dropWhile p = [] := by
  induction xs with
  | nil => rfl
  | cons c rest ih =>
    simp [List.dropWhile, h c (List.mem_cons_self _ _)]
    exact fun x hx => h x (List.mem_cons_of_mem _ hx)

theorem takeWhile_stop {α : Type} (p : α → Bool) (xs : List α) (y : α) (ys : List α)
    (h : ∀ c ∈ xs, p c = true) (hy : p y = false) :
    (xs ++ y :: ys).takeWhile p = xs := by
  induction xs with
  | nil => simp [List.takeWhile, hy]
  | cons c rest ih =>
    simp only [List.cons_append, List.takeWhile_cons, h c (List.mem_cons_self _ _), if_pos]
    rw [ih fun x hx => h x (List.mem_cons_of_mem _ hx)]

theorem dropWhile_stop {α : Type} (p : α → Bool) (xs : List α) (y : α) (ys : List α)
    (h : ∀ c ∈ xs, p c = true) (hy : p y = false) :
    (xs ++ y :: ys).dropWhile p = y :: ys := by
  induction xs with
  | nil => simp [List.dropWhile, hy]
  | cons c rest ih =>
    simp only [List.cons_append, List.dropWhile_cons, h c (List.mem_cons_self _ _), if_pos]
    exact ih fun x hx => h x (List.mem_cons_of_mem _ hx)

/-- Split a character list at every occurrence of the separator; the result
always has at least one (possibly empty) part. -/
def splitSep (d : Char) : List Char → List (List Char)
  | [] => [[]]
  | c :: rest =>
    if c == d then [] :: splitSep d rest
    else
      match splitSep d rest with
      | t :: ts => (c :: t) :: ts
      | [] => [[c]]

/-- Join parts with a separator character (inverse of `splitSep`). -/
def joinSep (d : Char) : List (List Char) → List Char
  | [] => []
  | [t] => t
  | t :: ts => t ++ d :: joinSep d ts

theorem splitSep_ne_nil (d : Char) (l : List Char) : splitSep d l ≠ [] := by
  induction l with
  | nil => simp [splitSep]
  | cons c rest ih =>
    by_cases hc : c == d
    · simp [splitSep, hc]
    · simp only [splitSep, hc, Bool.false_eq_true, if_neg, not_false_iff]
      rcases hsp : splitSep d rest with _ | ⟨t, ts⟩
      · simp
      · simp

theorem splitSep_no_sep (d : Char) (t : List Char) (h : d ∉ t) : splitSep d t = [t] := by
  induction t with
  | nil => rfl
  | cons c rest ih =>
    have hcd : (c == d) = false := by
      have : c ≠ d := fun hcd => h (hcd ▸ List.mem_cons_self _ _)
      simp [this]
    have hrest : d ∉ rest := fun hm => h (List.mem_cons_of_mem _ hm)
    simp only [splitSep, hcd, Bool.false_eq_true, if_neg, not_false_iff]
    rw [ih hrest]

theorem splitSep_append_sep (d : Char) (t l : List Char) (h : d ∉ t) :
    splitSep d (t ++ d :: l) = t :: splitSep d l := by
  induction t with
  | nil =>
    simp [splitSep]
  | cons c rest ih =>
    have hcd : (c == d) = false := by
      have : c ≠ d := fun hcd => h (hcd ▸ List.mem_cons_self _ _)
      simp [this]
    have hrest : d ∉ rest := fun hm => h (List.mem_cons_of_mem _ hm)
    simp only [List.cons_append, splitSep, hcd, Bool.false_eq_true, if_neg, not_false_iff]
    rw [List.append_eq, ih hrest]

theorem splitSep_joinSep (d : Char) (ts : List (List Char)) (hne : ts ≠ [])
    (h : ∀ t ∈ ts, d ∉ t) : splitSep d (joinSep d ts) = ts := by
  induction ts with
  | nil => exact absurd rfl hne
  | cons t rest ih =>
    cases rest with
    | nil =>
      show splitSep d (joinSep d [t]) = [t]
      rw [show joinSep d [t] = t from rfl]
      exact splitSep_no_sep d t (h t (List.mem_cons_self _ _))
    | cons u rest2 =>
      have hj : joinSep d (t :: u :: rest2) = t ++ d :: joinSep d (u :: rest2) := rfl
      rw [hj, splitSep_append_sep d t _ (h t (List.mem_cons_self _ _))]
      rw [ih (by simp) fun x hx => h x (List.mem_cons_of_mem _ hx)]

/-- Split at the last occurrence of a character: `none` when absent,
otherwise the parts strictly before and strictly after it. -/
def splitAtLast (d : Char) (cs : List Char) : Option (List Char × List Char) :=
  let rafter := cs.reverse.takeWhile (fun c => !(c == d))
  if rafter.length = cs.length then none
  else some (cs.take (cs.length - rafter.length - 1), rafter.reverse)

theorem splitAtLast_not_mem (d : Char) (cs : List Char) (h : d ∉ cs) :
    splitAtLast d cs = none := by
  have hall : ∀ c ∈ cs.reverse, (!(c == d)) = true := by
    intro c hc
    have : c ≠ d := fun he => h (he ▸ (List.mem_reverse.mp hc))
    simp [this]
  simp [splitAtLast, takeWhile_all_eq _ _ hall]

theorem splitAtLast_append (d : Char) (xs ys : List Char) (h : d ∉ ys) :
    splitAtLast d (xs ++ d :: ys) = some (xs, ys) := by
  have hall : ∀ c ∈ ys.reverse, (!(c == d)) = true := by
    intro c hc
    have : c ≠ d := fun he => h (he ▸ (List.mem_reverse.mp hc))
    simp [this]
  have hrev : (xs ++ d :: ys).reverse = ys.reverse ++ d :: xs.reverse := by
    simp
  have htw : (xs ++ d :: ys).reverse.takeWhile (fun c => !(c == d)) = ys.reverse := by
    rw [hrev]
    exact takeWhile_stop _ _ _ _ hall (by simp)
  have hlen : (xs ++ d :: ys).length = xs.length + ys.length + 1 := by
    simp
    omega
  have hne : ys.reverse.length ≠ (xs ++ d :: ys).length := by
    simp [hlen]
    omega
  have htake : (xs ++ d :: ys).length - ys.reverse.length - 1 = xs.length := by
    simp only [hlen, List.length_reverse]
    omega
  simp only [splitAtLast, htw, hne, if_neg, not_false_iff, htake, List.reverse_reverse]
  rw [List.take_left]

/-! ## Scheme, port, IPv4 and IPv6 validation (spec 4.2) -/

/-- Characters allowed after the first scheme character:
`ALPHA | DIGIT | + | - | .`. -/
def schemeCharOk (c : Char) : Bool :=
  c.isAlpha || c.isDigit || c == '+' || c == '-' || c == '.'

/-- A valid scheme: `ALPHA (ALPHA|DIGIT|+|-|.)*`. -/
def validSchemeChars : List Char → Bool
  | [] => false
  | c :: rest => c.isAlpha && rest.all schemeCharOk

/-- Decimal value of a digit list. -/
def digitsVal (l : List Char) : Nat := l.foldl (fun a c => a * 10 + (c.toNat - 48)) 0

/-- A valid port text: all decimal digits and numeric value at most 65535;
the empty text is allowed (unspecified port). -/
def validPortChars (l : List Char) : Bool :=
  l.all Char.isDigit && decide (digitsVal l ≤ 65535)

/-- One dotted-quad octet: nonempty digits, value at most 255, and no
non-zero value with a leading zero. -/
def ipv4Octet (l : List Char) : Bool :=
  !l.isEmpty && l.all Char.isDigit && decide (digitsVal l ≤ 255) &&
    (decide (digitsVal l = 0) || !(l.head? == some '0'))

/-- IPv4 dotted-quad test: exactly four dot-separated valid octets. -/
def isIPv4Chars (l : List Char) : Bool :=
  match splitSep '.' l with
  | [a, b, c, d] => ipv4Octet a && ipv4Octet b && ipv4Octet c && ipv4Octet d
  | _ => false

/-- Characters an IPv6 literal may contain. -/
def ipv6CharOk (c : Char) : Bool := isHexDigitChar c || c == ':'

/-- Structure of the colon-split group list of an IPv6 literal: eight
groups, or one `::` zero-compression run (leading, trailing, middle, or the
bare `::`), every group of one to four hex digits. -/
def ipv6Groups : Nat → List (List Char) → Bool
  | _, [] => false
  | n, g :: rest =>
    if g.isEmpty then
      (match rest with
       | [[]] => true
       | _ => !rest.isEmpty && rest.all (fun t => !t.isEmpty) &&
           decide (n + rest.length ≤ 7)) &&
      decide (1 ≤ n) && decide (n ≤ 7)
    else ipv6Groups (n + 1) rest

/-- IPv6 literal test (spec 4.2 step 3: eight colon-separated hextets with
at most one `::` compression run). -/
def validIPv6Chars (l : List Char) : Bool :=
  l.all ipv6CharOk && (splitSep ':' l).all (fun g => decide (g.length ≤ 4)) &&
  (match splitSep ':' l with
   | [[], [], []] => true
   | [] :: [] :: rest =>
     !rest.isEmpty && rest.all (fun t => !t.isEmpty) && decide (rest.length ≤ 7)
   | gs =>
     if gs.all (fun t => !t.isEmpty) then decide (gs.length = 8)
     else ipv6Groups 0 gs)

theorem validIPv6Chars_mem {l : List Char} (h : validIPv6Chars l = true) :
    ∀ c ∈ l, ipv6CharOk c = true := by
  have h1 : l.all ipv6CharOk = true := by
    unfold validIPv6Chars at h
    simp only [Bool.and_eq_true] at h
    exact h.1.1
  exact fun c hc => List.all_eq_true.mp h1 c hc

/-- Concrete sanity checks of the host classifiers (spec 8). -/
theorem hostClassifier_examples :
    isIPv4Chars ("127.0.0.1".data) = true ∧
    validIPv6Chars ("::1".data) = true ∧
    isIPv4Chars ("example.com".data) = false ∧
    validIPv6Chars ("example.com".data) = false ∧
    isIPv4Chars ("256.0.0.1".data) = false ∧
    isIPv4Chars ("01.2.3.4".data) = false ∧
    validIPv6Chars ("1:2:3:4:5:6:7:8".data) = true ∧
    validIPv6Chars ("1:2:3:4:5:6:7".data) = false ∧
    validIPv6Chars ("1:::2".data) = false ∧
    validIPv6Chars ("::".data) = true ∧
    validIPv6Chars ("1::".data) = true ∧
    validIPv6Chars ("fe80::1".data) = true := by
  decide

/-! ## The data model: `KeyVal` and the parsed field set -/

/-- The query entry type, from `Url::KeyVal` in `url.hpp`: two plain string
members `m_key` and `m_val`. -/
structure KeyVal where
  m_key : String
  m_val : String
deriving DecidableEq

/-- `KeyVal()` — default constructor: both members default-constructed
(empty strings). -/
def KeyVal.mkDefault : KeyVal := ⟨"", ""⟩

/-- `KeyVal(key, val)`. -/
def KeyVal.mkPair (k v : String) : KeyVal := ⟨k, v⟩

/-- `KeyVal(key)` — `m_val` is default-constructed empty. -/
def KeyVal.mkKeyOnly (k : String) : KeyVal := ⟨k, ""⟩

/-- `KeyVal::operator==`: both members compared. -/
def KeyVal.eqOp (a b : KeyVal) : Bool := a.m_key == b.m_key && a.m_val == b.m_val

/-- `KeyVal::key()` accessor. -/
def KeyVal.key (kv : KeyVal) : String := kv.m_key

/-- `KeyVal::val()` accessor. -/
def KeyVal.val (kv : KeyVal) : String := kv.m_val

/-- `KeyVal::swap`: exchanges both members, i.e. the two values. -/
def KeyVal.swapOp (a b : KeyVal) : KeyVal × KeyVal := (b, a)

/-- The decomposed field set of a URL: the seven component fields plus the
IP-version tag (-1 undefined, 0 name, 4 IPv4, 6 IPv6, as in `url.hpp`). -/
structure Fields where
  scheme : String
  user : String
  host : String
  port : String
  path : String
  query : List KeyVal
  fragment : String
  ip_v : Int
deriving DecidableEq

/-! ## Parser (spec 4.2)

`Url::parse_url` is only declared in `url.hpp`; the functions below are
modelled from the spec. -/

def isSchemeDelim (c : Char) : Bool := c == ':' || c == '/' || c == '?' || c == '#'

def isAuthDelim (c : Char) : Bool := c == '/' || c == '?' || c == '#'

def isPQDelim (c : Char) : Bool := c == '?' || c == '#'

/-- Modelled from the spec: scheme extraction (spec 4.2 step 1, for the
missing `Url::parse_url`).  The scheme is present iff a `:` occurs before
any `/`, `?`, `#` and the text before it is a valid scheme; otherwise the
whole input is a relative reference. -/
def splitScheme (cs : List Char) : List Char × List Char :=
  match cs.dropWhile (fun c => !(isSchemeDelim c)) with
  | c :: rest =>
    if c == ':' && validSchemeChars (cs.takeWhile (fun c => !(isSchemeDelim c))) then
      (cs.takeWhile (fun c => !(isSchemeDelim c)), rest)
    else ([], cs)
  | [] => ([], cs)

/-- The user_info, host, port and IP-version tag of one authority. -/
structure AuthParts where
  user : String
  host : String
  port : String
  ip_v : Int
deriving DecidableEq

/-- What may follow the closing bracket of an IPv6 host: nothing, or `:`
and a valid port. -/
def bracketPortTail (ins portRest : List Char) : Option (String × String × Int) :=
  match portRest with
  | [] => some (String.mk ins, "", 6)
  | ':' :: p =>
    if validPortChars p then some (String.mk ins, String.mk p, 6) else none
  | _ => none

/-- Modelled from the spec: the bracketed-host case of spec 4.2 step 3 (for
the missing `Url::parse_url`): the text up to `]` must be a valid IPv6
literal, what follows is empty or `:` and a valid port. -/
def bracketHostPort (rest : List Char) : Option (String × String × Int) :=
  match rest.dropWhile (fun c => !(c == ']')) with
  | ']' :: portRest =>
    if validIPv6Chars (rest.takeWhile (fun c => !(c == ']'))) then
      bracketPortTail (rest.takeWhile (fun c => !(c == ']'))) portRest
    else none
  | _ => none

/-- Validation and classification of one unbracketed host text and port
text (spec 4.2 steps 3-4): the port must be all digits with value at most
65535 (empty allowed), the host is classified IPv4 by the dotted-quad test
or else percent-decoded as a registered name. -/
def classifyHostPort (hraw praw : List Char) : Option (String × String × Int) :=
  if validPortChars praw then
    if isIPv4Chars hraw then some (String.mk hraw, String.mk praw, 4)
    else
      match percentDecode hraw with
      | some h => some (String.mk h, String.mk praw, 0)
      | none => none
  else none

/-- Modelled from the spec: the unbracketed host:port case of spec 4.2
steps 3-4 (for the missing `Url::parse_url`): split at the last `:` when
one is present. -/
def plainHostPort (hp : List Char) : Option (String × String × Int) :=
  match splitAtLast ':' hp with
  | some pr => classifyHostPort pr.1 pr.2
  | none => classifyHostPort hp []

/-- Modelled from the spec: host/port split and host classification
(spec 4.2 steps 3-4, for the missing `Url::parse_url`): the bracketed case
applies iff the text starts with `[`. -/
def parseHostPort (hp : List Char) : Option (String × String × Int) :=
  if hp.head? = some '[' then bracketHostPort hp.tail else plainHostPort hp

/-- Decode the raw user_info and hand the host:port text on. -/
def decodeUserHostPort (uraw hp : List Char) : Option AuthParts :=
  match percentDecode uraw with
  | none => none
  | some u =>
    match parseHostPort hp with
    | some hpv => some ⟨String.mk u, hpv.1, hpv.2.1, hpv.2.2⟩
    | none => none

/-- Modelled from the spec: authority parsing (spec 4.2 step 2, for the
missing `Url::parse_url`): split at the last `@` into percent-decoded
user_info and host:port; no `@` means empty user_info. -/
def parseAuthority (auth : List Char) : Option AuthParts :=
  match splitAtLast '@' auth with
  | some pr => decodeUserHostPort pr.1 pr.2
  | none => decodeUserHostPort [] auth

/-- Modelled from the spec: one query token (spec 4.2 step 6, for the
missing `Url::parse_url`): split at the first `=` into key and value (value
absent when there is no `=`), each percent-decoded. -/
def parseQueryToken (t : List Char) : Option KeyVal :=
  match t.dropWhile (fun c => !(c == '=')) with
  | '=' :: vraw =>
    match percentDecode (t.takeWhile (fun c => !(c == '='))), percentDecode vraw with
    | some k, some v => some ⟨String.mk k, String.mk v⟩
    | _, _ => none
  | _ =>
    match percentDecode (t.takeWhile (fun c => !(c == '='))) with
    | some k => some ⟨String.mk k, ""⟩
    | none => none

/-- Parse each `&`-token in order; any token failure fails the list. -/
def parseTokens : List (List Char) → Option (List KeyVal)
  | [] => some []
  | t :: ts =>
    match parseQueryToken t, parseTokens ts with
    | some kv, some kvs => some (kv :: kvs)
    | _, _ => none

/-- Modelled from the spec: query parsing (spec 4.2 step 6): split on `&`,
order and duplicates preserved. -/
def parseQueryChars (q : List Char) : Option (List KeyVal) :=
  parseTokens (splitSep '&' q)

/-- Modelled from the spec: fragment (spec 4.2 step 7): text after `#`,
percent-decoded. -/
def parseFrag (rest4 : List Char) : Option String :=
  match rest4 with
  | '#' :: fr => (percentDecode fr).map String.mk
  | _ => some ""

/-- Assemble the field set from the query result and the fragment rest. -/
def finishFields (schemeStr : String) (ap : AuthParts) (path : String)
    (qres : Option (List KeyVal)) (rest4 : List Char) : Option Fields :=
  match qres with
  | none => none
  | some qs =>
    match parseFrag rest4 with
    | none => none
    | some frag =>
      some ⟨schemeStr, ap.user, ap.host, ap.port, path, qs, frag, ap.ip_v⟩

/-- Split the query text (up to `#`) off the remainder after the path. -/
def parseAfterPath (schemeStr : String) (ap : AuthParts) (path : String)
    (rest3 : List Char) : Option Fields :=
  match rest3 with
  | '?' :: r =>
    finishFields schemeStr ap path
      (parseQueryChars (r.takeWhile (fun c => !(c == '#'))))
      (r.dropWhile (fun c => !(c == '#')))
  | r => finishFields schemeStr ap path (some []) r

/-- Modelled from the spec: path, query and fragment of the remainder after
the optional authority (spec 4.2 steps 5-7, for the missing
`Url::parse_url`). -/
def parseTail (schemeStr : String) (ap : AuthParts) (rest2 : List Char) : Option Fields :=
  match percentDecode (rest2.takeWhile (fun c => !(isPQDelim c))) with
  | none => none
  | some path =>
    parseAfterPath schemeStr ap (String.mk path)
      (rest2.dropWhile (fun c => !(isPQDelim c)))

def startsSlash : List Char → Bool
  | c :: _ => c == '/'
  | [] => false

def startsSlashSlash : List Char → Bool
  | a :: b :: _ => a == '/' && b == '/'
  | _ => false

/-- Modelled from the spec: the whole parser, raw text to field set
(spec 4.2, for the missing `Url::parse_url`); `none` is a parse failure.
An authority is present iff the remainder after the scheme starts with
`//`. -/
def parseUrl (s : String) : Option Fields :=
  match splitScheme s.data with
  | (sch, rest) =>
    if startsSlashSlash rest then
      match parseAuthority ((rest.drop 2).takeWhile (fun c => !(isAuthDelim c))) with
      | none => none
      | some ap =>
        parseTail (String.mk sch) ap ((rest.drop 2).dropWhile (fun c => !(isAuthDelim c)))
    else parseTail (String.mk sch) ⟨"", "", "", -1⟩ rest

/-! ## Builder (spec 4.3)

`Url::build_url` is likewise only declared in `url.hpp`; modelled from the
spec.  The raw text is the concatenation of the six named parts below. -/

/-- An authority is emitted iff host or user_info is non-empty
(spec 4.3). -/
def authPresent (f : Fields) : Bool := !(f.user == "") || !(f.host == "")

/-- Modelled from the spec: one serialized query token — encoded key, and
`=` plus encoded value only for a non-empty value (the `KeyVal` value
member, from the header, cannot distinguish an absent value from an
explicit empty one; spec 9 open question 1). -/
def buildQueryToken (kv : KeyVal) : List Char :=
  percentEncode queryAllow kv.m_key.data ++
    (if kv.m_val = "" then [] else '=' :: percentEncode queryAllow kv.m_val.data)

/-- Modelled from the spec: query serialization, tokens joined by `&`. -/
def buildQueryChars (qs : List KeyVal) : List Char := joinSep '&' (qs.map buildQueryToken)

/-- Modelled from the spec: the host segment — IPv6 hosts re-wrapped in
brackets, IPv4 hosts verbatim, names percent-encoded (spec 4.3). -/
def buildHostPart (f : Fields) : List Char :=
  if f.ip_v = 6 then '[' :: f.host.data ++ [']']
  else if f.ip_v = 4 then f.host.data
  else percentEncode hostAllow f.host.data

/-- Modelled from the spec: the scheme (with its `:`) when non-empty. -/
def schemePart (f : Fields) : List Char :=
  if f.scheme = "" then [] else f.scheme.data ++ [':']

/-- Modelled from the spec: encoded user_info followed by `@`, when
non-empty. -/
def userPart (f : Fields) : List Char :=
  if f.user = "" then [] else percentEncode userAllow f.user.data ++ ['@']

/-- Modelled from the spec: `:` and the port text, when non-empty. -/
def portPart (f : Fields) : List Char :=
  if f.port = "" then [] else ':' :: f.port.data

/-- The authority text: user_info, host and port segments. -/
def authChars (f : Fields) : List Char := userPart f ++ buildHostPart f ++ portPart f

/-- `//` and the authority, when an authority is present. -/
def authorityPart (f : Fields) : List Char :=
  if authPresent f then '/' :: '/' :: authChars f else []

/-- The encoded path. -/
def pathChars (f : Fields) : List Char := percentEncode pathAllow f.path.data

/-- `?` and the serialized query, when the query sequence is non-empty. -/
def queryPart (f : Fields) : List Char :=
  match f.query with
  | [] => []
  | qs => '?' :: buildQueryChars qs

/-- `#` and the encoded fragment, when non-empty. -/
def fragPart (f : Fields) : List Char :=
  if f.fragment = "" then [] else '#' :: percentEncode fragAllow f.fragment.data

/-- The whole built character list. -/
def buildChars (f : Fields) : List Char :=
  schemePart f ++ authorityPart f ++ pathChars f ++ queryPart f ++ fragPart f

/-- Modelled from the spec: the whole builder, field set to raw text
(spec 4.3, for the missing `Url::build_url`); `none` is a build failure
(IP-version hint inconsistent with the host text, invalid port, or an
authority-relative path that is non-empty yet not absolute). -/
def buildUrl (f : Fields) : Option String :=
  if f.ip_v = 6 ∧ validIPv6Chars f.host.data = false then none
  else if f.ip_v = 4 ∧ isIPv4Chars f.host.data = false then none
  else if f.port ≠ "" ∧ validPortChars f.port.data = false then none
  else if authPresent f = true ∧ f.path ≠ "" ∧ startsSlash f.path.data = false then none
  else some (String.mk (buildChars f))

/-! ## The `Url` object state and its operations (`url.hpp`)

`UrlState` mirrors the member variables of `class Url`.  The inline member
functions of the header (constructors, `operator=`, `toString`, `parse`,
the query accessors and mutators) are embedded directly; the private
`Url::parse_url` / `Url::build_url` they call are the spec-modelled
`parseUrl` / `buildUrl` above.  An operation that throws in C++ returns an
error together with the state the object is left in. -/

inductive UrlError where
  | parseErr : String → UrlError
  | buildErr : String → UrlError
  | outOfRange : Nat → UrlError
deriving DecidableEq

inductive URes (α : Type) where
  | ok : α → URes α
  | err : UrlError → URes α
deriving DecidableEq

/-- The member variables of `class Url`. -/
structure UrlState where
  m_scheme : String
  m_user : String
  m_host : String
  m_port : String
  m_path : String
  m_query : List KeyVal
  m_fragment : String
  m_url : String
  m_parse : Bool
  m_built : Bool
  m_ip_v : Int
deriving DecidableEq

/-- `Url()` — default constructor: `m_parse(true), m_built(true), m_ip_v(-1)`,
every string member default-constructed empty. -/
def UrlState.mkDefault : UrlState := ⟨"", "", "", "", "", [], "", "", true, true, -1⟩

/-- `Url(const std::string&)` — string constructor: `m_url(url_str),
m_parse(false), m_built(false), m_ip_v(-1)` (url.hpp lines 60-66). -/
def UrlState.mkFromString (s : String) : UrlState :=
  ⟨"", "", "", "", "", [], "", s, false, false, -1⟩

/-- `Url::parse(const std::string&)`, also `operator=(const std::string&)`:
`m_url = url_str; m_built = true; m_parse = false` (url.hpp lines 97-103). -/
def UrlState.parseAssign (s : String) (st : UrlState) : UrlState :=
  { st with m_url := s, m_built := true, m_parse := false }

/-- The current field-set members as a `Fields` record. -/
def UrlState.fields (st : UrlState) : Fields :=
  ⟨st.m_scheme, st.m_user, st.m_host, st.m_port, st.m_path, st.m_query,
   st.m_fragment, st.m_ip_v⟩

/-- The lazy `Url::parse_url() const` call every accessor and mutator makes:
a no-op when `m_parse` is set, otherwise the spec-modelled parser runs over
`m_url` and fills the field members (spec 4.1 `ensure_fields`); on a parse
failure the object is left unchanged (spec 7: a failed operation has no
visible effect). -/
def UrlState.ensureFields (st : UrlState) : URes UrlState :=
  if st.m_parse then .ok st
  else
    match parseUrl st.m_url with
    | some f =>
      .ok { st with m_scheme := f.scheme, m_user := f.user, m_host := f.host,
                    m_port := f.port, m_path := f.path, m_query := f.query,
                    m_fragment := f.fragment, m_ip_v := f.ip_v, m_parse := true }
    | none => .err (.parseErr st.m_url)

/-- `Url::toString`: `if (!m_built) build_url(); return m_url` (url.hpp
lines 89-94); `build_url` ensures fields, runs the spec-modelled builder and
sets `m_built` (spec 4.1 `ensure_raw`). -/
def UrlState.toStringOp (st : UrlState) : URes String × UrlState :=
  if st.m_built then (.ok st.m_url, st)
  else
    match st.ensureFields with
    | .err e => (.err e, st)
    | .ok st2 =>
      match buildUrl st2.fields with
      | some u => (.ok u, { st2 with m_url := u, m_built := true })
      | none => (.err (.buildErr st2.m_url), st2)

/-- `Url::query(size_t) const` (url.hpp lines 226-232): `parse_url()`;
out-of-range index throws, otherwise the entry is returned; the object
keeps the parsed cache. -/
def UrlState.queryAt (i : Nat) (st : UrlState) : URes KeyVal × UrlState :=
  match st.ensureFields with
  | .err e => (.err e, st)
  | .ok st2 =>
    if h : i < st2.m_query.length then (.ok (st2.m_query.get ⟨i, h⟩), st2)
    else (.err (.outOfRange i), st2)

/-- `Url::set_query(size_t)` (url.hpp lines 244-251) combined with the write
through the returned reference: `parse_url()`; out-of-range throws before
`m_built` is touched; otherwise `m_built = false` and the entry is replaced
by `kv` (the reference is writable, so the update happens regardless of
whether `kv` differs from the old entry). -/
def UrlState.setQueryAt (i : Nat) (kv : KeyVal) (st : UrlState) : URes Unit × UrlState :=
  match st.ensureFields with
  | .err e => (.err e, st)
  | .ok st2 =>
    if i < st2.m_query.length then
      (.ok (), { st2 with m_built := false, m_query := st2.m_query.set i kv })
    else (.err (.outOfRange i), st2)

/-- `Url::set_query(const Query&)` (url.hpp lines 254-263): `parse_url()`;
`if (q != m_query) { m_query = q; m_built = false; }`. -/
def UrlState.setQueryBulk (q : List KeyVal) (st : UrlState) : URes Unit × UrlState :=
  match st.ensureFields with
  | .err e => (.err e, st)
  | .ok st2 =>
    if q ≠ st2.m_query then (.ok (), { st2 with m_query := q, m_built := false })
    else (.ok (), st2)

/-- `Url::set_query()` (url.hpp lines 235-240) combined with a write through
the returned reference: `parse_url(); m_built = false;` then the caller may
replace the whole vector. -/
def UrlState.setQueryRef (q : List KeyVal) (st : UrlState) : URes Unit × UrlState :=
  match st.ensureFields with
  | .err e => (.err e, st)
  | .ok st2 => (.ok (), { st2 with m_built := false, m_query := q })

/-- `Url::add_query` (url.hpp lines 266-290, all three overloads after their
`KeyVal` conversion): `parse_url(); m_built = false; m_query.push_back`. -/
def UrlState.addQuery (kv : KeyVal) (st : UrlState) : URes Unit × UrlState :=
  match st.ensureFields with
  | .err e => (.err e, st)
  | .ok st2 => (.ok (), { st2 with m_built := false, m_query := st2.m_query ++ [kv] })

/-- Modelled from the spec: `Url::port(std::string)` is only declared in the
header.  Spec 4.1 (mutator: ensure fields, write, mark raw stale), 4.2
step 4 (all-decimal digits, value at most 65535, empty allowed) and 7
(validate-before-commit: a failed mutation has no visible effect). -/
def UrlState.setPortStr (s : String) (st : UrlState) : URes Unit × UrlState :=
  match st.ensureFields with
  | .err e => (.err e, st)
  | .ok st2 =>
    if validPortChars s.data then (.ok (), { st2 with m_port := s, m_built := false })
    else (.err (.parseErr s), st2)

/-- Decimal digit list of a natural number (the value `std::to_string`
produces for an unsigned integer). -/
def natToDecChars (n : Nat) : List Char :=
  if n = 0 then ['0'] else (Nat.digits 10 n).reverse.map (fun d => Char.ofNat (48 + d))

def natToDecString (n : Nat) : String := String.mk (natToDecChars n)

/-- `Url::port(std::uint16_t)` (url.hpp line 153): forwards
`std::to_string(num)` to the string setter. -/
def UrlState.setPortNum (n : Nat) (st : UrlState) : URes Unit × UrlState :=
  st.setPortStr (natToDecString n)

/-- Modelled from the spec: the remaining field setters (`scheme`,
`user_info`, `host`, `path`, `fragment`) are only declared in the header;
spec 4.1: ensure fields, write the new value, mark the raw form stale. -/
def UrlState.setScheme (s : String) (st : UrlState) : URes Unit × UrlState :=
  match st.ensureFields with
  | .err e => (.err e, st)
  | .ok st2 => (.ok (), { st2 with m_scheme := s, m_built := false })

/-- Modelled from the spec: see `UrlState.setScheme`. -/
def UrlState.setUserInfo (s : String) (st : UrlState) : URes Unit × UrlState :=
  match st.ensureFields with
  | .err e => (.err e, st)
  | .ok st2 => (.ok (), { st2 with m_user := s, m_built := false })

/-- Modelled from the spec: see `UrlState.setScheme`; the IP-version hint is
recorded and re-validated at build time (spec 4.5). -/
def UrlState.setHost (h : String) (ipv : Int) (st : UrlState) : URes Unit × UrlState :=
  match st.ensureFields with
  | .err e => (.err e, st)
  | .ok st2 => (.ok (), { st2 with m_host := h, m_ip_v := ipv, m_built := false })

/-- Modelled from the spec: see `UrlState.setScheme`. -/
def UrlState.setPath (s : String) (st : UrlState) : URes Unit × UrlState :=
  match st.ensureFields with
  | .err e => (.err e, st)
  | .ok st2 => (.ok (), { st2 with m_path := s, m_built := false })

/-- Modelled from the spec: see `UrlState.setScheme`. -/
def UrlState.setFragment (s : String) (st : UrlState) : URes Unit × UrlState :=
  match st.ensureFields with
  | .err e => (.err e, st)
  | .ok st2 => (.ok (), { st2 with m_fragment := s, m_built := false })

/-- The states a `Url` object can reach through the public operations:
default construction, construction from a string, assignment from a string,
field reads (all `const` accessors call `parse_url()` and share the same
cache-filling effect), serialization, and the field/query mutators. -/
inductive Reachable : UrlState → Prop where
  | mkDefault : Reachable UrlState.mkDefault
  | mkFromString (s : String) : Reachable (UrlState.mkFromString s)
  | parseAssign (s : String) {st : UrlState} :
      Reachable st → Reachable (st.parseAssign s)
  | fieldRead {st st2 : UrlState} :
      Reachable st → st.ensureFields = .ok st2 → Reachable st2
  | serialize {st : UrlState} : Reachable st → Reachable (st.toStringOp).2
  | queryAt (i : Nat) {st : UrlState} : Reachable st → Reachable (st.queryAt i).2
  | setQueryAt (i : Nat) (kv : KeyVal) {st : UrlState} :
      Reachable st → Reachable (st.setQueryAt i kv).2
  | setQueryBulk (q : List KeyVal) {st : UrlState} :
      Reachable st → Reachable (st.setQueryBulk q).2
  | setQueryRef (q : List KeyVal) {st : UrlState} :
      Reachable st → Reachable (st.setQueryRef q).2
  | addQuery (kv : KeyVal) {st : UrlState} :
      Reachable st → Reachable (st.addQuery kv).2
  | setPortStr (s : String) {st : UrlState} :
      Reachable st → Reachable (st.setPortStr s).2
  | setPortNum (n : Nat) {st : UrlState} :
      Reachable st → Reachable (st.setPortNum n).2
  | setScheme (s : String) {st : UrlState} :
      Reachable st → Reachable (st.setScheme s).2
  | setUserInfo (s : String) {st : UrlState} :
      Reachable st → Reachable (st.setUserInfo s).2
  | setHost (h : String) (ipv : Int) {st : UrlState} :
      Reachable st → Reachable (st.setHost h ipv).2
  | setPath (s : String) {st : UrlState} :
      Reachable st → Reachable (st.setPath s).2
  | setFragment (s : String) {st : UrlState} :
      Reachable st → Reachable (st.setFragment s).2

/-! ## Basic facts about the cache operations -/

theorem ensureFields_ok_parse {st st2 : UrlState} (h : st.ensureFields = .ok st2) :
    st2.m_parse = true ∧ st2.m_built = st.m_built ∧ st2.m_url = st.m_url := by
  unfold UrlState.ensureFields at h
  by_cases hp : st.m_parse
  · simp only [hp, if_pos] at h
    cases h
    exact ⟨hp, rfl, rfl⟩
  · simp only [hp, Bool.false_eq_true, if_neg, not_false_iff] at h
    rcases hpu : parseUrl st.m_url with _ | f
    · rw [hpu] at h
      cases h
    · rw [hpu] at h
      cases h
      exact ⟨rfl, rfl, rfl⟩

theorem ensureFields_of_fresh {st : UrlState} (h : st.m_parse = true) :
    st.ensureFields = .ok st := by
  unfold UrlState.ensureFields
  simp [h]

/-! ## The freshness-flag invariant (claim C1)

The string constructor leaves `m_parse = m_built = false`, so the
unrestricted invariant fails; what holds on every reachable state is that
the flags are never both false *except* in a state exactly as the string
constructor produces it (all field members still default-empty, the raw
string authoritative). -/

def flagsOrCtor (st : UrlState) : Prop :=
  st.m_parse = true ∨ st.m_built = true ∨ st = UrlState.mkFromString st.m_url

theorem flagsOrCtor_toStringOp (st : UrlState) (h : flagsOrCtor st) :
    flagsOrCtor (st.toStringOp).2 := by
  unfold UrlState.toStringOp
  by_cases hb : st.m_built
  · simpa [hb] using h
  · rcases he : st.ensureFields with st2 | e
    · rcases hbu : buildUrl st2.fields with _ | u
      · simp only [hb, Bool.false_eq_true, if_neg, not_false_iff, he, hbu]
        exact Or.inl (ensureFields_ok_parse he).1
      · simp only [hb, Bool.false_eq_true, if_neg, not_false_iff, he, hbu]
        exact Or.inr (Or.inl rfl)
    · simpa [hb, he] using h

theorem flagsOrCtor_queryAt (i : Nat) (st : UrlState) (h : flagsOrCtor st) :
    flagsOrCtor (st.queryAt i).2 := by
  unfold UrlState.queryAt
  rcases he : st.ensureFields with st2 | e
  · have hp := (ensureFields_ok_parse he).1
    by_cases hi : i < st2.m_query.length
    · simp only [he, hi, dif_pos]
      exact Or.inl hp
    · simp only [he, hi, dif_neg, not_false_iff]
      exact Or.inl hp
  · simpa [he] using h

theorem flagsOrCtor_setQueryAt (i : Nat) (kv : KeyVal) (st : UrlState)
    (h : flagsOrCtor st) : flagsOrCtor (st.setQueryAt i kv).2 := by
  unfold UrlState.setQueryAt
  rcases he : st.ensureFields with st2 | e
  · have hp := (ensureFields_ok_parse he).1
    by_cases hi : i < st2.m_query.length
    · simp only [he, hi, if_pos]
      exact Or.inl hp
    · simp only [he, hi, if_neg, not_false_iff]
      exact Or.inl hp
  · simpa [he] using h

theorem flagsOrCtor_setQueryBulk (q : List KeyVal) (st : UrlState)
    (h : flagsOrCtor st) : flagsOrCtor (st.setQueryBulk q).2 := by
  unfold UrlState.setQueryBulk
  rcases he : st.ensureFields with st2 | e
  · have hp := (ensureFields_ok_parse he).1
    by_cases hq : q ≠ st2.m_query
    · simp only [he]
      rw [if_pos hq]
      exact Or.inl hp
    · simp only [he]
      rw [if_neg hq]
      exact Or.inl hp
  · simpa [he] using h

theorem flagsOrCtor_setQueryRef (q : List KeyVal) (st : UrlState)
    (h : flagsOrCtor st) : flagsOrCtor (st.setQueryRef q).2 := by
  unfold UrlState.setQueryRef
  rcases he : st.ensureFields with st2 | e
  · simp only [he]
    exact Or.inl (ensureFields_ok_parse he).1
  · simpa [he] using h

theorem flagsOrCtor_addQuery (kv : KeyVal) (st : UrlState)
    (h : flagsOrCtor st) : flagsOrCtor (st.addQuery kv).2 := by
  unfold UrlState.addQuery
  rcases he : st.ensureFields with st2 | e
  · simp only [he]
    exact Or.inl (ensureFields_ok_parse he).1
  · simpa [he] using h

theorem flagsOrCtor_setPortStr (s : String) (st : UrlState)
    (h : flagsOrCtor st) : flagsOrCtor (st.setPortStr s).2 := by
  unfold UrlState.setPortStr
  rcases he : st.ensureFields with st2 | e
  · have hp := (ensureFields_ok_parse he).1
    by_cases hv : validPortChars s.data
    · simp only [he, hv, if_pos]
      exact Or.inl hp
    · simp only [he, hv, Bool.false_eq_true, if_neg, not_false_iff]
      exact Or.inl hp
  · simpa [he] using h

theorem flagsOrCtor_setScheme (s : String) (st : UrlState)
    (h : flagsOrCtor st) : flagsOrCtor (st.setScheme s).2 := by
  unfold UrlState.setScheme
  rcases he : st.ensureFields with st2 | e
  · simp only [he]
    exact Or.inl (ensureFields_ok_parse he).1
  · simpa [he] using h

theorem flagsOrCtor_setUserInfo (s : String) (st : UrlState)
    (h : flagsOrCtor st) : flagsOrCtor (st.setUserInfo s).2 := by
  unfold UrlState.setUserInfo
  rcases he : st.ensureFields with st2 | e
  · simp only [he]
    exact Or.inl (ensureFields_ok_parse he).1
  · simpa [he] using h

theorem flagsOrCtor_setHost (hs : String) (ipv : Int) (st : UrlState)
    (h : flagsOrCtor st) : flagsOrCtor (st.setHost hs ipv).2 := by
  unfold UrlState.setHost
  rcases he : st.ensureFields with st2 | e
  · simp only [he]
    exact Or.inl (ensureFields_ok_parse he).1
  · simpa [he] using h

theorem flagsOrCtor_setPath (s : String) (st : UrlState)
    (h : flagsOrCtor st) : flagsOrCtor (st.setPath s).2 := by
  unfold UrlState.setPath
  rcases he : st.ensureFields with st2 | e
  · simp only [he]
    exact Or.inl (ensureFields_ok_parse he).1
  · simpa [he] using h

theorem flagsOrCtor_setFragment (s : String) (st : UrlState)
    (h : flagsOrCtor st) : flagsOrCtor (st.setFragment s).2 := by
  unfold UrlState.setFragment
  rcases he : st.ensureFields with st2 | e
  · simp only [he]
    exact Or.inl (ensureFields_ok_parse he).1
  · simpa [he] using h

theorem flagsOrCtor_reachable (st : UrlState) (h : Reachable st) : flagsOrCtor st := by
  induction h with
  | mkDefault => exact Or.inl rfl
  | mkFromString s => exact Or.inr (Or.inr rfl)
  | parseAssign s _ _ => exact Or.inr (Or.inl rfl)
  | fieldRead _ he _ => exact Or.inl (ensureFields_ok_parse he).1
  | serialize _ ih => exact flagsOrCtor_toStringOp _ ih
  | queryAt i _ ih => exact flagsOrCtor_queryAt i _ ih
  | setQueryAt i kv _ ih => exact flagsOrCtor_setQueryAt i kv _ ih
  | setQueryBulk q _ ih => exact flagsOrCtor_setQueryBulk q _ ih
  | setQueryRef q _ ih => exact flagsOrCtor_setQueryRef q _ ih
  | addQuery kv _ ih => exact flagsOrCtor_addQuery kv _ ih
  | setPortStr s _ ih => exact flagsOrCtor_setPortStr s _ ih
  | setPortNum n _ ih => exact flagsOrCtor_setPortStr _ _ ih
  | setScheme s _ ih => exact flagsOrCtor_setScheme s _ ih
  | setUserInfo s _ ih => exact flagsOrCtor_setUserInfo s _ ih
  | setHost hs ipv _ ih => exact flagsOrCtor_setHost hs ipv _ ih
  | setPath s _ ih => exact flagsOrCtor_setPath s _ ih
  | setFragment s _ ih => exact flagsOrCtor_setFragment s _ ih

/-! ## Claim C1 -/

/-- C1 is false as stated: the string constructor (url.hpp lines 60-66)
initializes `m_parse(false), m_built(false)`, so the freshly constructed
state — which is reachable — has both freshness flags false. -/
theorem claim_C1_counterexample :
    Reachable (UrlState.mkFromString "http://example.com/") ∧
    (UrlState.mkFromString "http://example.com/").m_parse = false ∧
    (UrlState.mkFromString "http://example.com/").m_built = false :=
  ⟨Reachable.mkFromString _, rfl, rfl⟩

/-- C1 (amended): on every reachable `Url` state, the flags `m_parse`
(fields fresh) and `m_built` (raw fresh) are never both false, except in a
state exactly as the string constructor leaves it (field members still
default-empty, the raw string authoritative); every subsequent operation —
field read or mutation, serialization, assignment — restores the
invariant. -/
theorem claim_C1 (st : UrlState) (h : Reachable st) :
    st.m_parse = true ∨ st.m_built = true ∨ st = UrlState.mkFromString st.m_url :=
  flagsOrCtor_reachable st h

theorem claim_C1_witness :
    UrlState.mkDefault.m_parse = true ∨ UrlState.mkDefault.m_built = true ∨
      UrlState.mkDefault = UrlState.mkFromString UrlState.mkDefault.m_url :=
  claim_C1 UrlState.mkDefault Reachable.mkDefault

/-! ## Claim C2 -/

/-- C2 is false as stated for the constructor path: `Url("http://%41")`
leaves `m_built = false` (not true as claimed), and the subsequent
`toString()` does invoke the builder — it returns the canonicalized
`"http://A"`, not the adopted string itself. -/
theorem claim_C2_counterexample :
    (UrlState.mkFromString "http://%41").m_built = false ∧
    ((UrlState.mkFromString "http://%41").toStringOp).1 = URes.ok "http://A" := by
  constructor
  · rfl
  · decide

/-- C2 (amended): assign-from-string (`operator=` / `parse`) adopts s as
the raw form: `m_built = true`, `m_parse = false`, the raw string becomes
s, the prior field members are left untouched (dead — nothing is parsed),
and a subsequent `toString()` returns s itself with the state unchanged
(no builder call).  The string *constructor*, however, sets both flags
false, so `toString()` after construction invokes the builder. -/
theorem claim_C2 (s : String) (st : UrlState) :
    (st.parseAssign s).m_built = true ∧
    (st.parseAssign s).m_parse = false ∧
    (st.parseAssign s).m_url = s ∧
    (st.parseAssign s).m_scheme = st.m_scheme ∧
    (st.parseAssign s).m_user = st.m_user ∧
    (st.parseAssign s).m_host = st.m_host ∧
    (st.parseAssign s).m_port = st.m_port ∧
    (st.parseAssign s).m_path = st.m_path ∧
    (st.parseAssign s).m_query = st.m_query ∧
    (st.parseAssign s).m_fragment = st.m_fragment ∧
    (st.parseAssign s).toStringOp = (URes.ok s, st.parseAssign s) ∧
    (UrlState.mkFromString s).m_parse = false ∧
    (UrlState.mkFromString s).m_built = false ∧
    (UrlState.mkFromString s).m_url = s := by
  refine ⟨rfl, rfl, rfl, rfl, rfl, rfl, rfl, rfl, rfl, rfl, ?_, rfl, rfl, rfl⟩
  simp [UrlState.toStringOp, UrlState.parseAssign]

/-! ## Claim C4 -/

/-- C4 is false as stated: on an object assigned `"s:?a=1"` (fields fresh
after the internal parse, raw fresh), writing the *identical* entry
`("a","1")` through `set_query(0)` still flips `m_built` to false — the
raw form is marked stale although the entry is structurally unchanged. -/
theorem claim_C4_counterexample :
    ((UrlState.parseAssign "s:?a=1" UrlState.mkDefault).queryAt 0).1 =
      URes.ok ⟨"a", "1"⟩ ∧
    (UrlState.parseAssign "s:?a=1" UrlState.mkDefault).m_built = true ∧
    ((UrlState.parseAssign "s:?a=1" UrlState.mkDefault).setQueryAt 0 ⟨"a", "1"⟩).2.m_query =
      [⟨"a", "1"⟩] ∧
    ((UrlState.parseAssign "s:?a=1" UrlState.mkDefault).setQueryAt 0 ⟨"a", "1"⟩).2.m_built =
      false := by
  decide

/-- C4 (amended): `set_query(i)` on an in-range index marks the raw form
stale *unconditionally* — handing out the writable reference itself sets
`m_built = false` before any write, so `m_built` is false afterwards even
when the entry is left structurally identical. -/
theorem claim_C4 (st st2 : UrlState) (i : Nat) (kv : KeyVal)
    (he : st.ensureFields = URes.ok st2) (hi : i < st2.m_query.length) :
    (st.setQueryAt i kv).1 = URes.ok () ∧
    (st.setQueryAt i kv).2.m_built = false ∧
    (st.setQueryAt i kv).2.m_query = st2.m_query.set i kv := by
  unfold UrlState.setQueryAt
  simp only [he]
  rw [if_pos hi]
  exact ⟨rfl, rfl, rfl⟩

theorem claim_C4_witness :
    ((UrlState.parseAssign "s:?a=1" UrlState.mkDefault).setQueryAt 0 ⟨"a", "1"⟩).1 =
      URes.ok () ∧
    ((UrlState.parseAssign "s:?a=1" UrlState.mkDefault).setQueryAt 0 ⟨"a", "1"⟩).2.m_built =
      false ∧
    ((UrlState.parseAssign "s:?a=1" UrlState.mkDefault).setQueryAt 0 ⟨"a", "1"⟩).2.m_query =
      ([⟨"a", "1"⟩] : List KeyVal).set 0 ⟨"a", "1"⟩ :=
  claim_C4 _ ⟨"s", "", "", "", "", [⟨"a", "1"⟩], "", "s:?a=1", true, true, -1⟩ 0 ⟨"a", "1"⟩
    (by decide) (by decide)

/-! ## Claim C5 -/

/-- C5 is false as stated in its flag part: on an object whose fields are
not yet parsed (`m_parse = false` after assign-from-string), a bulk
`set_query` with the sequence equal to the parsed one does leave the query,
the raw string and `m_built` unchanged, but flips `m_parse` from false to
true (the operation first parses), so "both freshness flags unchanged"
fails. -/
theorem claim_C5_counterexample :
    ((UrlState.parseAssign "s:?a=1" UrlState.mkDefault).setQueryBulk [⟨"a", "1"⟩]).1 =
      URes.ok () ∧
    ((UrlState.parseAssign "s:?a=1" UrlState.mkDefault).setQueryBulk [⟨"a", "1"⟩]).2.m_query =
      [⟨"a", "1"⟩] ∧
    ((UrlState.parseAssign "s:?a=1" UrlState.mkDefault).setQueryBulk [⟨"a", "1"⟩]).2.m_built =
      true ∧
    ((UrlState.parseAssign "s:?a=1" UrlState.mkDefault).setQueryBulk [⟨"a", "1"⟩]).2.m_parse =
      true ∧
    (UrlState.parseAssign "s:?a=1" UrlState.mkDefault).m_parse = false := by
  decide

/-- C5 (amended): bulk `set_query(q)` marks the raw form stale only if q
differs from the (parsed) query sequence; when q is structurally equal the
query, the raw string and the raw-freshness flag are unchanged — and when
the fields were already fresh the entire state is unchanged — but
`m_parse` may flip from false to true because the operation first ensures
the fields are parsed. -/
theorem claim_C5 (st st2 : UrlState) (q : List KeyVal)
    (he : st.ensureFields = URes.ok st2) :
    (q = st2.m_query →
      st.setQueryBulk q = (URes.ok (), st2) ∧
      (st.setQueryBulk q).2.m_built = st.m_built ∧
      (st.setQueryBulk q).2.m_url = st.m_url ∧
      (st.setQueryBulk q).2.m_query = st2.m_query) ∧
    (q ≠ st2.m_query →
      (st.setQueryBulk q).2.m_built = false ∧
      (st.setQueryBulk q).2.m_query = q ∧
      (st.setQueryBulk q).1 = URes.ok ()) ∧
    (st.m_parse = true → q = st.m_query → st.setQueryBulk q = (URes.ok (), st)) := by
  obtain ⟨hp2, hb2, hu2⟩ := ensureFields_ok_parse he
  refine ⟨?_, ?_, ?_⟩
  · intro hq
    have heq : st.setQueryBulk q = (URes.ok (), st2) := by
      unfold UrlState.setQueryBulk
      simp only [he]
      rw [if_neg (by simpa using hq)]
    rw [heq]
    exact ⟨rfl, hb2, hu2, hq ▸ rfl⟩
  · intro hq
    have heq : st.setQueryBulk q =
        (URes.ok (), { st2 with m_query := q, m_built := false }) := by
      unfold UrlState.setQueryBulk
      simp only [he]
      rw [if_pos hq]
    rw [heq]
    exact ⟨rfl, rfl, rfl⟩
  · intro hp hq
    have hst : st2 = st := by
      have := ensureFields_of_fresh hp
      rw [this] at he
      cases he
      rfl
    unfold UrlState.setQueryBulk
    simp only [he, hst]
    rw [if_neg (by simpa using hq)]

theorem claim_C5_witness :
    (([] : List KeyVal) = UrlState.mkDefault.m_query →
      UrlState.mkDefault.setQueryBulk [] = (URes.ok (), UrlState.mkDefault) ∧
      (UrlState.mkDefault.setQueryBulk []).2.m_built = UrlState.mkDefault.m_built ∧
      (UrlState.mkDefault.setQueryBulk []).2.m_url = UrlState.mkDefault.m_url ∧
      (UrlState.mkDefault.setQueryBulk []).2.m_query = UrlState.mkDefault.m_query) ∧
    (([] : List KeyVal) ≠ UrlState.mkDefault.m_query →
      (UrlState.mkDefault.setQueryBulk []).2.m_built = false ∧
      (UrlState.mkDefault.setQueryBulk []).2.m_query = [] ∧
      (UrlState.mkDefault.setQueryBulk []).1 = URes.ok ()) ∧
    (UrlState.mkDefault.m_parse = true → ([] : List KeyVal) = UrlState.mkDefault.m_query →
      UrlState.mkDefault.setQueryBulk [] = (URes.ok (), UrlState.mkDefault)) :=
  claim_C5 UrlState.mkDefault UrlState.mkDefault [] (by decide)

/-! ## Claim C6 -/

/-- C6: with `st2` the state after the internal `parse_url()`, an index at
or beyond the parsed query length makes both `query(i)` and `set_query(i)`
raise the out-of-range error and leave the object in `st2` — same `m_built`
and same raw string as before, the whole state unchanged when the fields
were already fresh, and in particular no staleness marked on failure; an
index below the length returns the i-th entry. -/
theorem claim_C6 (st st2 : UrlState) (i : Nat) (he : st.ensureFields = URes.ok st2) :
    (st2.m_query.length ≤ i →
      st.queryAt i = (URes.err (UrlError.outOfRange i), st2) ∧
      (∀ kv, st.setQueryAt i kv = (URes.err (UrlError.outOfRange i), st2)) ∧
      st2.m_built = st.m_built ∧ st2.m_url = st.m_url ∧
      (st.m_parse = true → st2 = st)) ∧
    (∀ h : i < st2.m_query.length,
      st.queryAt i = (URes.ok (st2.m_query.get ⟨i, h⟩), st2) ∧
      (∀ kv, st.setQueryAt i kv =
        (URes.ok (), { st2 with m_built := false, m_query := st2.m_query.set i kv }))) := by
  obtain ⟨hp2, hb2, hu2⟩ := ensureFields_ok_parse he
  constructor
  · intro hge
    have hni : ¬ i < st2.m_query.length := Nat.not_lt.mpr hge
    refine ⟨?_, ?_, hb2, hu2, ?_⟩
    · unfold UrlState.queryAt
      simp only [he]
      rw [dif_neg hni]
    · intro kv
      unfold UrlState.setQueryAt
      simp only [he]
      rw [if_neg hni]
    · intro hp
      have := ensureFields_of_fresh hp
      rw [this] at he
      cases he
      rfl
  · intro h
    constructor
    · unfold UrlState.queryAt
      simp only [he]
      rw [dif_pos h]
    · intro kv
      unfold UrlState.setQueryAt
      simp only [he]
      rw [if_pos h]

theorem claim_C6_witness :
    (let st2 : UrlState := ⟨"s", "", "", "", "", [⟨"a", "1"⟩], "", "s:?a=1", true, true, -1⟩
     let st : UrlState := UrlState.parseAssign "s:?a=1" UrlState.mkDefault
     st2.m_query.length ≤ 3 →
      st.queryAt 3 = (URes.err (UrlError.outOfRange 3), st2) ∧
      (∀ kv, st.setQueryAt 3 kv = (URes.err (UrlError.outOfRange 3), st2)) ∧
      st2.m_built = st.m_built ∧ st2.m_url = st.m_url ∧
      (st.m_parse = true → st2 = st)) ∧
    (let st2 : UrlState := ⟨"s", "", "", "", "", [⟨"a", "1"⟩], "", "s:?a=1", true, true, -1⟩
     let st : UrlState := UrlState.parseAssign "s:?a=1" UrlState.mkDefault
     ∀ h : 3 < st2.m_query.length,
      st.queryAt 3 = (URes.ok (st2.m_query.get ⟨3, h⟩), st2) ∧
      (∀ kv, st.setQueryAt 3 kv =
        (URes.ok (), { st2 with m_built := false, m_query := st2.m_query.set 3 kv }))) :=
  claim_C6 (UrlState.parseAssign "s:?a=1" UrlState.mkDefault)
    ⟨"s", "", "", "", "", [⟨"a", "1"⟩], "", "s:?a=1", true, true, -1⟩ 3 (by decide)

/-! ## Claim C7 -/

/-- C7: the port setter accepts exactly the all-decimal-digit strings of
numeric value at most 65535 (the empty string among them, clearing the
port); setting `"70000"` fails, and parsing a URL containing `":70000"`
fails. -/
theorem claim_C7 (s : String) (st st2 : UrlState) (he : st.ensureFields = URes.ok st2) :
    ((st.setPortStr s).1 = URes.ok () ↔
      (s = "" ∨ (s.data.all Char.isDigit = true ∧ digitsVal s.data ≤ 65535))) ∧
    ((st.setPortStr s).1 = URes.ok () → (st.setPortStr s).2.m_port = s) ∧
    (st.setPortStr "").1 = URes.ok () ∧
    (st.setPortStr "").2.m_port = "" ∧
    (st.setPortStr "70000").1 = URes.err (UrlError.parseErr "70000") ∧
    parseUrl "http://h:70000/" = none := by
  have hrw : ∀ t : String, st.setPortStr t =
      (if validPortChars t.data then
        ((URes.ok () : URes Unit), { st2 with m_port := t, m_built := false })
      else (URes.err (UrlError.parseErr t), st2)) := by
    intro t
    unfold UrlState.setPortStr
    simp only [he]
  refine ⟨?_, ?_, ?_, ?_, ?_, by decide⟩
  · rw [hrw s]
    constructor
    · intro hok
      by_cases hv : validPortChars s.data
      · unfold validPortChars at hv
        simp only [Bool.and_eq_true, decide_eq_true_eq] at hv
        exact Or.inr hv
      · rw [if_neg hv] at hok
        cases hok
    · intro hd
      have hv : validPortChars s.data = true := by
        rcases hd with rfl | ⟨h1, h2⟩
        · decide
        · unfold validPortChars
          simp [h1, h2]
      rw [if_pos hv]
  · rw [hrw s]
    intro hok
    by_cases hv : validPortChars s.data
    · rw [if_pos hv]
    · rw [if_neg hv] at hok
      cases hok
  · rw [hrw ""]
    rw [if_pos (by decide)]
  · rw [hrw ""]
    rw [if_pos (by decide)]
  · rw [hrw "70000"]
    rw [if_neg (by decide)]

theorem claim_C7_witness :
    (((UrlState.mkDefault.setPortStr "8080").1 = URes.ok () ↔
      ("8080" = "" ∨ ("8080".data.all Char.isDigit = true ∧ digitsVal "8080".data ≤ 65535))) ∧
    ((UrlState.mkDefault.setPortStr "8080").1 = URes.ok () →
      (UrlState.mkDefault.setPortStr "8080").2.m_port = "8080") ∧
    (UrlState.mkDefault.setPortStr "").1 = URes.ok () ∧
    (UrlState.mkDefault.setPortStr "").2.m_port = "" ∧
    (UrlState.mkDefault.setPortStr "70000").1 = URes.err (UrlError.parseErr "70000") ∧
    parseUrl "http://h:70000/" = none) :=
  claim_C7 "8080" UrlState.mkDefault UrlState.mkDefault (by decide)

/-! ## Claim C8 -/

/-- C8: parsing the query text `"a=1&b=&a=2"` yields exactly the ordered
sequence `[("a","1"), ("b",""), ("a","2")]`, and serializing a `Url`
holding that field set reproduces the same token order and the duplicate
key (the `"b="` token re-serializes as the key-only token `"b"`, since the
value member cannot record the distinction; re-parsing the built text
restores the identical sequence). -/
theorem claim_C8 :
    parseQueryChars ("a=1&b=&a=2".data) =
      some [⟨"a", "1"⟩, ⟨"b", ""⟩, ⟨"a", "2"⟩] ∧
    parseUrl "s:?a=1&b=&a=2" =
      some ⟨"s", "", "", "", "", [⟨"a", "1"⟩, ⟨"b", ""⟩, ⟨"a", "2"⟩], "", -1⟩ ∧
    buildUrl ⟨"s", "", "", "", "", [⟨"a", "1"⟩, ⟨"b", ""⟩, ⟨"a", "2"⟩], "", -1⟩ =
      some "s:?a=1&b&a=2" ∧
    parseUrl "s:?a=1&b&a=2" =
      some ⟨"s", "", "", "", "", [⟨"a", "1"⟩, ⟨"b", ""⟩, ⟨"a", "2"⟩], "", -1⟩ := by
  decide

/-! ## Claim C9 -/

/-- C9: a `KeyVal` constructed from the key alone equals one constructed
from `(k, "")` — the value member is a plain string with no absent marker,
so both `operator==` and `val()` cannot distinguish them. -/
theorem claim_C9 (k : String) :
    KeyVal.mkKeyOnly k = KeyVal.mkPair k "" ∧
    KeyVal.eqOp (KeyVal.mkKeyOnly k) (KeyVal.mkPair k "") = true ∧
    (KeyVal.mkKeyOnly k).val = (KeyVal.mkPair k "").val ∧
    (KeyVal.mkKeyOnly k).val = "" := by
  refine ⟨rfl, ?_, rfl, rfl⟩
  simp [KeyVal.eqOp, KeyVal.mkKeyOnly, KeyVal.mkPair]

/-! ## Claim C10: the numeric port setter -/

theorem digit_char_class {d : Nat} (h : d < 10) :
    (Char.ofNat (48 + d)).isDigit = true ∧ (Char.ofNat (48 + d)).toNat = 48 + d := by
  interval_cases d <;> exact ⟨by decide, by decide⟩

theorem natToDecChars_all_digit (n : Nat) : (natToDecChars n).all Char.isDigit = true := by
  unfold natToDecChars
  by_cases h : n = 0
  · rw [if_pos h]
    decide
  · rw [if_neg h]
    rw [List.all_eq_true]
    intro c hc
    obtain ⟨d, hd, rfl⟩ := List.mem_map.mp hc
    have hd10 : d < 10 :=
      Nat.digits_lt_base (by norm_num) (List.mem_reverse.mp hd)
    exact (digit_char_class hd10).1

theorem foldl_decimal (l : List Nat) (acc : Nat) :
    List.foldl (fun a d => a * 10 + d) acc l.reverse =
      acc * 10 ^ l.length + Nat.ofDigits 10 l := by
  induction l generalizing acc with
  | nil => simp [Nat.ofDigits]
  | cons d t ih =>
    rw [List.reverse_cons, List.foldl_append, ih acc]
    simp only [List.foldl_cons, List.foldl_nil, List.length_cons, Nat.ofDigits_cons]
    ring

theorem foldl_digit_chars (l : List Nat) (hl : ∀ d ∈ l, d < 10) (acc : Nat) :
    List.foldl (fun a c => a * 10 + (c.toNat - 48)) acc
        (l.map (fun d => Char.ofNat (48 + d))) =
      List.foldl (fun a d => a * 10 + d) acc l := by
  induction l generalizing acc with
  | nil => rfl
  | cons d t ih =>
    simp only [List.map_cons, List.foldl_cons]
    rw [(digit_char_class (hl d (List.mem_cons_self _ _))).2]
    have : 48 + d - 48 = d := by omega
    rw [this]
    exact ih (fun x hx => hl x (List.mem_cons_of_mem _ hx)) _

theorem digitsVal_natToDecChars (n : Nat) : digitsVal (natToDecChars n) = n := by
  unfold natToDecChars digitsVal
  by_cases h : n = 0
  · rw [if_pos h, h]
    decide
  · rw [if_neg h]
    rw [foldl_digit_chars (Nat.digits 10 n).reverse
      (fun d hd => Nat.digits_lt_base (by norm_num) (List.mem_reverse.mp hd)) 0]
    rw [foldl_decimal (Nat.digits 10 n) 0]
    rw [Nat.ofDigits_digits]
    ring

/-- C10: `Url::port(std::uint16_t)` (url.hpp line 153) forwards the decimal
digit string of n to the string setter; that string is always all-decimal
with numeric value n, at most 65535, so the numeric overload can never hit
the out-of-range or non-numeric port failure. -/
theorem claim_C10 (n : Nat) (st st2 : UrlState) (hn : n < 65536)
    (he : st.ensureFields = URes.ok st2) :
    st.setPortNum n = st.setPortStr (natToDecString n) ∧
    (natToDecString n).data.all Char.isDigit = true ∧
    digitsVal (natToDecString n).data = n ∧
    st.setPortNum n =
      (URes.ok (), { st2 with m_port := natToDecString n, m_built := false }) := by
  have hall : (natToDecChars n).all Char.isDigit = true := natToDecChars_all_digit n
  have hval : digitsVal (natToDecChars n) = n := digitsVal_natToDecChars n
  have hvalid : validPortChars (natToDecString n).data = true := by
    unfold validPortChars
    have hdata : (natToDecString n).data = natToDecChars n := rfl
    rw [hdata, hall, hval]
    simp
    omega
  refine ⟨rfl, hall, hval, ?_⟩
  unfold UrlState.setPortNum UrlState.setPortStr
  simp only [he]
  rw [if_pos hvalid]

theorem claim_C10_witness :
    UrlState.mkDefault.setPortNum 8080 =
      UrlState.mkDefault.setPortStr (natToDecString 8080) ∧
    (natToDecString 8080).data.all Char.isDigit = true ∧
    digitsVal (natToDecString 8080).data = 8080 ∧
    UrlState.mkDefault.setPortNum 8080 =
      (URes.ok (),
        { UrlState.mkDefault with m_port := natToDecString 8080, m_built := false }) :=
  claim_C10 8080 UrlState.mkDefault UrlState.mkDefault (by decide) (by decide)

/-! ## Round-trip analysis (claim C3): generic helpers -/

theorem takeWhile_exact {α : Type} (p : α → Bool) (xs ys : List α)
    (hxs : ∀ c ∈ xs, p c = true)
    (hys : ys = [] ∨ ∃ c rest, ys = c :: rest ∧ p c = false) :
    (xs ++ ys).takeWhile p = xs ∧ (xs ++ ys).dropWhile p = ys := by
  rcases hys with rfl | ⟨c, rest, rfl, hc⟩
  · rw [List.append_nil]
    exact ⟨takeWhile_all_eq p xs hxs, dropWhile_all_eq p xs hxs⟩
  · exact ⟨takeWhile_stop p xs c rest hxs hc, dropWhile_stop p xs c rest hxs hc⟩

/-- The non-allowed output characters of the encoder. -/
def escapeIsh (c : Char) : Prop := c = '%' ∨ c.isDigit = true ∨ ('A' ≤ c ∧ c ≤ 'F')

instance (c : Char) : Decidable (escapeIsh c) := by
  unfold escapeIsh; infer_instance

theorem mem_percentEncode2 {allow : Char → Bool} {c : Char} {l : List Char}
    (h : c ∈ percentEncode allow l) : allow c = true ∨ escapeIsh c := by
  rcases mem_percentEncode h with h1 | h1 | h1
  · exact Or.inl h1
  · exact Or.inr (Or.inl h1)
  · exact Or.inr (Or.inr h1)

theorem mem_percentEncode_ne {allow : Char → Bool} {c : Char} {l : List Char}
    (h : c ∈ percentEncode allow l) (d : Char) (h1 : allow d = false)
    (h2 : ¬ escapeIsh d) : c ≠ d := by
  intro he
  subst he
  rcases mem_percentEncode2 h with h3 | h3
  · rw [h1] at h3
    cases h3
  · exact h2 h3

theorem bool_pred_ne {P : Char → Bool} {c d : Char} (h : P c = true)
    (hd : P d = false) : c ≠ d := by
  intro he
  subst he
  rw [hd] at h
  cases h

/-- Membership in a `splitSep` decomposition: every character is the
separator or lies in one of the groups. -/
theorem splitSep_mem {d : Char} {l : List Char} {c : Char} (hc : c ∈ l) :
    c = d ∨ ∃ g ∈ splitSep d l, c ∈ g := by
  induction l with
  | nil => cases hc
  | cons a rest ih =>
    rcases List.mem_cons.mp hc with rfl | hc2
    · by_cases had : (c == d) = true
      · exact Or.inl (by simpa using had)
      · right
        rcases hsp : splitSep d rest with _ | ⟨t, ts⟩
        · exact absurd hsp (splitSep_ne_nil d rest)
        · refine ⟨c :: t, ?_, List.mem_cons_self _ _⟩
          simp only [splitSep, had, Bool.false_eq_true, if_neg, not_false_iff, hsp]
          exact List.mem_cons_self _ _
    · rcases ih hc2 with rfl | ⟨g, hg, hcg⟩
      · exact Or.inl rfl
      · right
        by_cases had : (a == d) = true
        · refine ⟨g, ?_, hcg⟩
          simp only [splitSep, had, if_pos]
          exact List.mem_cons_of_mem _ hg
        · rcases hsp : splitSep d rest with _ | ⟨t, ts⟩
          · exact absurd hsp (splitSep_ne_nil d rest)
          · rw [hsp] at hg
            rcases List.mem_cons.mp hg with rfl | hgts
            · refine ⟨a :: g, ?_, List.mem_cons_of_mem _ hcg⟩
              simp only [splitSep, had, Bool.false_eq_true, if_neg, not_false_iff, hsp]
              exact List.mem_cons_self _ _
            · refine ⟨g, ?_, hcg⟩
              simp only [splitSep, had, Bool.false_eq_true, if_neg, not_false_iff, hsp]
              exact List.mem_cons_of_mem _ hgts

theorem ipv4Octet_digits {g : List Char} (h : ipv4Octet g = true) :
    ∀ c ∈ g, c.isDigit = true := by
  unfold ipv4Octet at h
  simp only [Bool.and_eq_true] at h
  exact fun c hc => List.all_eq_true.mp h.1.1.2 c hc

theorem isIPv4Chars_mem {l : List Char} (h : isIPv4Chars l = true) {c : Char}
    (hc : c ∈ l) : c.isDigit = true ∨ c = '.' := by
  rcases splitSep_mem (d := '.') hc with rfl | ⟨g, hg, hcg⟩
  · exact Or.inr rfl
  · left
    unfold isIPv4Chars at h
    split at h
    · rename_i a b c4 d4 heq
      rw [heq] at hg
      simp only [Bool.and_eq_true] at h
      simp only [List.mem_cons, List.not_mem_nil, or_false] at hg
      rcases hg with rfl | rfl | rfl | rfl
      · exact ipv4Octet_digits h.1.1.1 _ hcg
      · exact ipv4Octet_digits h.1.1.2 _ hcg
      · exact ipv4Octet_digits h.1.2 _ hcg
      · exact ipv4Octet_digits h.2 _ hcg
    · cases h

/-! ## Round-trip analysis: the scheme split on built text -/

theorem schemeCharOk_not_delim {c : Char} (h : schemeCharOk c = true) :
    isSchemeDelim c = false := by
  have h1 : c ≠ ':' := bool_pred_ne h (by decide)
  have h2 : c ≠ '/' := bool_pred_ne h (by decide)
  have h3 : c ≠ '?' := bool_pred_ne h (by decide)
  have h4 : c ≠ '#' := bool_pred_ne h (by decide)
  simp [isSchemeDelim, h1, h2, h3, h4]

theorem validSchemeChars_not_delim {l : List Char} (h : validSchemeChars l = true) :
    ∀ c ∈ l, isSchemeDelim c = false := by
  cases l with
  | nil => intro c hc; cases hc
  | cons a rest =>
    unfold validSchemeChars at h
    simp only [Bool.and_eq_true] at h
    intro c hc
    rcases List.mem_cons.mp hc with rfl | hc2
    · exact schemeCharOk_not_delim (by simp [schemeCharOk, h.1])
    · exact schemeCharOk_not_delim (List.all_eq_true.mp h.2 c hc2)

theorem splitScheme_valid (sch rest : List Char) (hv : validSchemeChars sch = true) :
    splitScheme (sch ++ ':' :: rest) = (sch, rest) := by
  have hall : ∀ c ∈ sch, (!(isSchemeDelim c)) = true := by
    intro c hc
    simp [validSchemeChars_not_delim hv c hc]
  obtain ⟨htw, hdw⟩ := takeWhile_exact (fun c => !(isSchemeDelim c)) sch (':' :: rest)
    hall (Or.inr ⟨':', rest, rfl, by decide⟩)
  unfold splitScheme
  rw [hdw, htw, hv]
  simp

theorem splitScheme_slash (cs : List Char) : splitScheme ('/' :: cs) = ([], '/' :: cs) := by
  unfold splitScheme
  have hdw : List.dropWhile (fun c => !(isSchemeDelim c)) ('/' :: cs) = '/' :: cs := by
    rw [List.dropWhile_cons]
    simp [isSchemeDelim]
  rw [hdw]
  simp

theorem splitScheme_not_colon (cs : List Char)
    (h : ∀ rest, cs.dropWhile (fun c => !(isSchemeDelim c)) ≠ ':' :: rest) :
    splitScheme cs = ([], cs) := by
  unfold splitScheme
  rcases hd : cs.dropWhile (fun c => !(isSchemeDelim c)) with _ | ⟨c, rest⟩
  · rfl
  · have hc : (c == ':') = false := by
      by_cases hcc : c = ':'
      · subst hcc
        exact absurd hd (h rest)
      · simp [hcc]
    simp [hc]

theorem hexish_not_schemeDelim {c : Char} (h : escapeIsh c) : isSchemeDelim c = false := by
  have h1 : c ≠ ':' := by intro he; subst he; exact absurd h (by decide)
  have h2 : c ≠ '/' := by intro he; subst he; exact absurd h (by decide)
  have h3 : c ≠ '?' := by intro he; subst he; exact absurd h (by decide)
  have h4 : c ≠ '#' := by intro he; subst he; exact absurd h (by decide)
  simp [isSchemeDelim, h1, h2, h3, h4]

/-- The central relative-reference lemma: scanning the encoded path (plus a
query/fragment tail) for the scheme delimiter never finds a `:` first,
provided the decoded path has no `:` before its first `/`. -/
theorem encPath_dropWhile_not_colon (p : List Char) (tail : List Char)
    (hcf : ':' ∉ p.takeWhile (fun c => !(c == '/')))
    (htail : ∀ rest, tail.dropWhile (fun c => !(isSchemeDelim c)) ≠ ':' :: rest) :
    ∀ rest,
      (percentEncode pathAllow p ++ tail).dropWhile (fun c => !(isSchemeDelim c)) ≠
        ':' :: rest := by
  induction p with
  | nil => simpa using htail
  | cons c p2 ih =>
    by_cases hac : pathAllow c
    · have henc : percentEncode pathAllow (c :: p2) =
          c :: percentEncode pathAllow p2 := by
        simp [percentEncode, percentEncodeChar, hac]
      by_cases hslash : c = '/'
      · intro rest hcontra
        rw [henc, hslash] at hcontra
        rw [List.cons_append, List.dropWhile_cons] at hcontra
        simp only [isSchemeDelim] at hcontra
        simp at hcontra
      · by_cases hcolon : c = ':'
        · exfalso
          apply hcf
          rw [hcolon]
          rw [List.takeWhile_cons]
          simp
        · have hdelim : isSchemeDelim c = false := by
            have h3 : c ≠ '?' := bool_pred_ne hac (by decide)
            have h4 : c ≠ '#' := bool_pred_ne hac (by decide)
            simp [isSchemeDelim, hcolon, hslash, h3, h4]
          have hcf2 : ':' ∉ p2.takeWhile (fun x => !(x == '/')) := by
            intro hmem
            apply hcf
            rw [List.takeWhile_cons]
            have hcond : (!(c == '/')) = true := by simp [hslash]
            rw [hcond]
            simp only [if_pos]
            exact List.mem_cons_of_mem _ hmem
          intro rest hcontra
          rw [henc, List.cons_append, List.dropWhile_cons] at hcontra
          rw [hdelim] at hcontra
          simp only [Bool.not_false, if_pos] at hcontra
          exact ih hcf2 rest hcontra
    · have henc : percentEncode pathAllow (c :: p2) =
          '%' :: hexDigitChar (c.toNat / 16 % 16) :: hexDigitChar (c.toNat % 16) ::
            percentEncode pathAllow p2 := by
        simp [percentEncode, percentEncodeChar, hac]
      have hslash : c ≠ '/' := by
        intro he
        subst he
        exact absurd (by decide : pathAllow '/' = true) (by simp [hac])
      have hcf2 : ':' ∉ p2.takeWhile (fun x => !(x == '/')) := by
        intro hmem
        apply hcf
        rw [List.takeWhile_cons]
        have hcond : (!(c == '/')) = true := by simp [hslash]
        rw [hcond]
        simp only [if_pos]
        exact List.mem_cons_of_mem _ hmem
      have hd1 : isSchemeDelim (hexDigitChar (c.toNat / 16 % 16)) = false :=
        hexish_not_schemeDelim
          (Or.inr (hexDigitChar_class (Nat.mod_lt _ (by norm_num))))
      have hd2 : isSchemeDelim (hexDigitChar (c.toNat % 16)) = false :=
        hexish_not_schemeDelim
          (Or.inr (hexDigitChar_class (Nat.mod_lt _ (by norm_num))))
      intro rest hcontra
      rw [henc, List.cons_append, List.cons_append, List.cons_append] at hcontra
      rw [List.dropWhile_cons, List.dropWhile_cons, List.dropWhile_cons] at hcontra
      rw [show isSchemeDelim '%' = false from by decide, hd1, hd2] at hcontra
      simp only [Bool.not_false, if_pos] at hcontra
      exact ih hcf2 rest hcontra

/-! ## Round-trip analysis: well-formed field sets

`WFields` collects the conditions under which the built text re-parses to
the same field set.  Each condition is forced by a failure mode of the
grammar itself: a decoded `:` in the first segment of a scheme-less
relative path re-parses as a scheme; a path starting `//` without an
authority re-parses as one; an authority with empty host and user cannot be
re-detected; a name host whose text is a dotted quad re-classifies as IPv4;
non-byte characters cannot be percent-encoded. -/

def byteStr (s : String) : Prop := byteChars s.data

instance (s : String) : Decidable (byteStr s) := by
  unfold byteStr; infer_instance

def WFields (f : Fields) : Prop :=
  byteStr f.user ∧ byteStr f.host ∧ byteStr f.path ∧ byteStr f.fragment ∧
  (∀ kv ∈ f.query, byteStr kv.m_key ∧ byteStr kv.m_val) ∧
  (f.scheme = "" ∨ validSchemeChars f.scheme.data = true) ∧
  (authPresent f = true →
    (f.ip_v = 6 ∧ validIPv6Chars f.host.data = true) ∨
    (f.ip_v = 4 ∧ isIPv4Chars f.host.data = true) ∨
    (f.ip_v = 0 ∧ isIPv4Chars f.host.data = false)) ∧
  (authPresent f = false →
    f.host = "" ∧ f.user = "" ∧ f.port = "" ∧ f.ip_v = -1 ∧
    startsSlashSlash f.path.data = false ∧
    (f.scheme = "" → ':' ∉ f.path.data.takeWhile (fun c => !(c == '/')))) ∧
  (authPresent f = true → f.path = "" ∨ startsSlash f.path.data = true) ∧
  (f.port = "" ∨ (f.port.data.all Char.isDigit = true ∧ digitsVal f.port.data ≤ 65535))

instance (f : Fields) : Decidable (WFields f) := by
  unfold WFields; infer_instance

theorem authPresent_iff {f : Fields} : authPresent f = true ↔ (f.user ≠ "" ∨ f.host ≠ "") := by
  unfold authPresent
  rcases Bool.eq_false_or_eq_true (f.user == "") with h | h <;>
    rcases Bool.eq_false_or_eq_true (f.host == "") with h2 | h2 <;>
      simp_all

/-! ### Character classifications of the built authority -/

theorem allow_not_authDelim {P : Char → Bool} {c : Char} (hP : P c = true)
    (p1 : P '/' = false) (p2 : P '?' = false) (p3 : P '#' = false) :
    isAuthDelim c = false := by
  simp [isAuthDelim, bool_pred_ne hP p1, bool_pred_ne hP p2, bool_pred_ne hP p3]

theorem escapeIsh_not_authDelim {c : Char} (h : escapeIsh c) : isAuthDelim c = false := by
  have h1 : c ≠ '/' := by intro he; subst he; exact absurd h (by decide)
  have h2 : c ≠ '?' := by intro he; subst he; exact absurd h (by decide)
  have h3 : c ≠ '#' := by intro he; subst he; exact absurd h (by decide)
  simp [isAuthDelim, h1, h2, h3]

theorem escapeIsh_ne {c : Char} (h : escapeIsh c) {d : Char} (hd : ¬ escapeIsh d) :
    c ≠ d := fun he => hd (he ▸ h)

theorem mem_userPart {f : Fields} {c : Char} (h : c ∈ userPart f) :
    userAllow c = true ∨ escapeIsh c ∨ c = '@' := by
  unfold userPart at h
  by_cases hu : f.user = ""
  · rw [if_pos hu] at h
    cases h
  · rw [if_neg hu] at h
    rcases List.mem_append.mp h with h2 | h2
    · rcases mem_percentEncode2 h2 with h3 | h3
      · exact Or.inl h3
      · exact Or.inr (Or.inl h3)
    · exact Or.inr (Or.inr (List.mem_singleton.mp h2))

theorem mem_portPart {f : Fields} {c : Char}
    (hp : f.port = "" ∨ (f.port.data.all Char.isDigit = true ∧ digitsVal f.port.data ≤ 65535))
    (h : c ∈ portPart f) : c = ':' ∨ c.isDigit = true := by
  unfold portPart at h
  by_cases hpe : f.port = ""
  · rw [if_pos hpe] at h
    cases h
  · rw [if_neg hpe] at h
    rcases List.mem_cons.mp h with rfl | h2
    · exact Or.inl rfl
    · rcases hp with hp | hp
      · exact absurd hp hpe
      · exact Or.inr (List.all_eq_true.mp hp.1 c h2)

/-- Character classification of the host segment under the `WFields`
IP-version consistency condition. -/
theorem mem_buildHostPart {f : Fields} {c : Char}
    (hip : (f.ip_v = 6 ∧ validIPv6Chars f.host.data = true) ∨
           (f.ip_v = 4 ∧ isIPv4Chars f.host.data = true) ∨
           (f.ip_v = 0 ∧ isIPv4Chars f.host.data = false))
    (h : c ∈ buildHostPart f) :
    c = '[' ∨ c = ']' ∨ ipv6CharOk c = true ∨ c.isDigit = true ∨ c = '.' ∨
      hostAllow c = true ∨ escapeIsh c := by
  unfold buildHostPart at h
  rcases hip with ⟨h6, hv⟩ | ⟨h4, hv⟩ | ⟨h0, hv⟩
  · rw [if_pos h6] at h
    rcases List.mem_cons.mp h with rfl | h2
    · exact Or.inl rfl
    · rcases List.mem_append.mp h2 with h3 | h3
      · exact Or.inr (Or.inr (Or.inl (validIPv6Chars_mem hv c h3)))
      · exact Or.inr (Or.inl (List.mem_singleton.mp h3))
  · rw [if_neg (by simp [h4]), if_pos h4] at h
    rcases isIPv4Chars_mem hv h with h3 | h3
    · exact Or.inr (Or.inr (Or.inr (Or.inl h3)))
    · exact Or.inr (Or.inr (Or.inr (Or.inr (Or.inl h3))))
  · rw [if_neg (by simp [h0]), if_neg (by simp [h0])] at h
    rcases mem_percentEncode2 h with h3 | h3
    · exact Or.inr (Or.inr (Or.inr (Or.inr (Or.inr (Or.inl h3)))))
    · exact Or.inr (Or.inr (Or.inr (Or.inr (Or.inr (Or.inr h3)))))

theorem authChars_not_authDelim {f : Fields} (hW : WFields f) :
    ∀ c ∈ authChars f, isAuthDelim c = false := by
  obtain ⟨_, _, _, _, _, _, hip, hna, _, hport⟩ := hW
  intro c hc
  unfold authChars at hc
  rcases List.mem_append.mp hc with hc2 | hc2
  · rcases List.mem_append.mp hc2 with hc3 | hc3
    · rcases mem_userPart hc3 with h | h | h
      · exact allow_not_authDelim h (by decide) (by decide) (by decide)
      · exact escapeIsh_not_authDelim h
      · subst h; decide
    · -- host part: only reachable when an authority is present
      by_cases hauth : authPresent f = true
      · rcases mem_buildHostPart (hip hauth) hc3 with h | h | h | h | h | h | h
        · subst h; decide
        · subst h; decide
        · exact allow_not_authDelim h (by decide) (by decide) (by decide)
        · exact allow_not_authDelim h (by decide) (by decide) (by decide)
        · subst h; decide
        · exact allow_not_authDelim h (by decide) (by decide) (by decide)
        · exact escapeIsh_not_authDelim h
      · -- no authority: W forces host = "", so the host part is empty
        have hf : authPresent f = false := Bool.eq_false_iff.mpr hauth
        obtain ⟨hh, _, _, hip2, _, _⟩ := hna hf
        unfold buildHostPart at hc3
        rw [if_neg (by rw [hip2]; decide), if_neg (by rw [hip2]; decide)] at hc3
        rw [hh] at hc3
        simp [percentEncode] at hc3
  · rcases mem_portPart hport hc2 with h | h
    · subst h; decide
    · exact allow_not_authDelim h (by decide) (by decide) (by decide)

theorem authChars_ne_at {f : Fields} (hW : WFields f) :
    '@' ∉ buildHostPart f ++ portPart f := by
  obtain ⟨_, _, _, _, _, _, hip, hna, _, hport⟩ := hW
  intro hc
  rcases List.mem_append.mp hc with hc2 | hc2
  · by_cases hauth : authPresent f = true
    · rcases mem_buildHostPart (hip hauth) hc2 with h | h | h | h | h | h | h
      · cases h
      · cases h
      · cases h
      · cases h
      · cases h
      · cases h
      · exact absurd h (by decide)
    · have hf : authPresent f = false := Bool.eq_false_iff.mpr hauth
      obtain ⟨hh, _, _, hip2, _, _⟩ := hna hf
      unfold buildHostPart at hc2
      rw [if_neg (by rw [hip2]; decide), if_neg (by rw [hip2]; decide)] at hc2
      rw [hh] at hc2
      simp [percentEncode] at hc2
  · rcases mem_portPart hport hc2 with h | h
    · cases h
    · exact absurd h (by decide)

/-! ## Round-trip analysis: re-parsing the built authority -/

theorem validPortChars_nil : validPortChars [] = true := by decide

theorem port_valid {f : Fields}
    (hport : f.port = "" ∨ (f.port.data.all Char.isDigit = true ∧ digitsVal f.port.data ≤ 65535))
    (hne : f.port ≠ "") : validPortChars f.port.data = true := by
  rcases hport with h | h
  · exact absurd h hne
  · unfold validPortChars
    simp [h.1, h.2]

theorem port_no_colon {f : Fields}
    (hport : f.port = "" ∨ (f.port.data.all Char.isDigit = true ∧ digitsVal f.port.data ≤ 65535))
    (hne : f.port ≠ "") : ':' ∉ f.port.data := by
  rcases hport with h | h
  · exact absurd h hne
  · intro hm
    exact absurd (List.all_eq_true.mp h.1 _ hm) (by decide)

theorem parseHostPort_not_bracket {hp : List Char} (h : ∀ t, hp ≠ '[' :: t) :
    parseHostPort hp = plainHostPort hp := by
  unfold parseHostPort
  rw [if_neg]
  intro hh
  rcases hp with _ | ⟨c, t⟩
  · simp at hh
  · simp [List.head?_cons] at hh
    exact h t (by rw [hh])

theorem classifyHostPort_v4 {f : Fields} (hv : isIPv4Chars f.host.data = true)
    (praw : List Char) (hp : validPortChars praw = true) :
    classifyHostPort f.host.data praw = some (f.host, String.mk praw, 4) := by
  unfold classifyHostPort
  rw [if_pos hp, if_pos hv]

theorem classifyHostPort_name {f : Fields} (hbyte : byteStr f.host)
    (hv : isIPv4Chars f.host.data = false) (praw : List Char)
    (hp : validPortChars praw = true) :
    classifyHostPort (percentEncode hostAllow f.host.data) praw =
      some (f.host, String.mk praw, 0) := by
  unfold classifyHostPort
  rw [if_pos hp]
  have hip : isIPv4Chars (percentEncode hostAllow f.host.data) = false := by
    rcases Bool.eq_false_or_eq_true (isIPv4Chars (percentEncode hostAllow f.host.data))
      with h | h
    · exfalso
      have hnp : '%' ∉ percentEncode hostAllow f.host.data := by
        intro hmem
        rcases isIPv4Chars_mem h hmem with hd | hd
        · exact absurd hd (by decide)
        · exact absurd hd (by decide)
      obtain ⟨heq, _⟩ := percentEncode_no_escape hnp
      rw [heq] at h
      rw [h] at hv
      cases hv
    · exact h
  rw [if_neg (by rw [hip]; exact Bool.false_ne_true)]
  rw [percentDecode_percentEncode hostAllow (by decide) f.host.data hbyte]

theorem bracketHostPort_step (rest portRest : List Char)
    (h : rest.dropWhile (fun c => !(c == ']')) = ']' :: portRest) :
    bracketHostPort rest =
      if validIPv6Chars (rest.takeWhile (fun c => !(c == ']'))) = true then
        bracketPortTail (rest.takeWhile (fun c => !(c == ']'))) portRest
      else none := by
  unfold bracketHostPort
  rw [h]
  rfl

theorem plainHostPort_split_some (hp a b : List Char)
    (h : splitAtLast ':' hp = some (a, b)) :
    plainHostPort hp = classifyHostPort a b := by
  unfold plainHostPort
  rw [h]

theorem plainHostPort_split_none (hp : List Char) (h : splitAtLast ':' hp = none) :
    plainHostPort hp = classifyHostPort hp [] := by
  unfold plainHostPort
  rw [h]

theorem parseAuthority_split_some (auth a b : List Char)
    (h : splitAtLast '@' auth = some (a, b)) :
    parseAuthority auth = decodeUserHostPort a b := by
  unfold parseAuthority
  rw [h]

theorem parseAuthority_split_none (auth : List Char)
    (h : splitAtLast '@' auth = none) :
    parseAuthority auth = decodeUserHostPort [] auth := by
  unfold parseAuthority
  rw [h]

theorem decodeUserHostPort_eq (uraw hp u : List Char) (hpv : String × String × Int)
    (hu : percentDecode uraw = some u) (hh : parseHostPort hp = some hpv) :
    decodeUserHostPort uraw hp = some ⟨String.mk u, hpv.1, hpv.2.1, hpv.2.2⟩ := by
  unfold decodeUserHostPort
  rw [hu, hh]

/-- Re-parsing the built host and port segments recovers host, port and the
IP-version tag. -/
theorem parseHostPort_build {f : Fields}
    (hip : (f.ip_v = 6 ∧ validIPv6Chars f.host.data = true) ∨
           (f.ip_v = 4 ∧ isIPv4Chars f.host.data = true) ∨
           (f.ip_v = 0 ∧ isIPv4Chars f.host.data = false))
    (hbyte : byteStr f.host)
    (hport : f.port = "" ∨ (f.port.data.all Char.isDigit = true ∧ digitsVal f.port.data ≤ 65535)) :
    parseHostPort (buildHostPart f ++ portPart f) = some (f.host, f.port, f.ip_v) := by
  rcases hip with ⟨h6, hv⟩ | ⟨h4, hv⟩ | ⟨h0, hv⟩
  · -- IPv6: bracketed text
    have hshape : buildHostPart f ++ portPart f =
        '[' :: (f.host.data ++ ']' :: portPart f) := by
      unfold buildHostPart
      rw [if_pos h6]
      simp
    rw [hshape]
    unfold parseHostPort
    rw [if_pos (by simp), List.tail_cons]
    have hnb : ∀ c ∈ f.host.data, (!(c == ']')) = true := by
      intro c hc
      have := validIPv6Chars_mem hv c hc
      simp [bool_pred_ne this (by decide : ipv6CharOk ']' = false)]
    obtain ⟨htw, hdw⟩ := takeWhile_exact (fun c => !(c == ']')) f.host.data
      (']' :: portPart f) hnb (Or.inr ⟨']', portPart f, rfl, by decide⟩)
    rw [bracketHostPort_step _ (portPart f) hdw, htw, if_pos hv]
    by_cases hpe : f.port = ""
    · have hpp : portPart f = [] := by
        unfold portPart
        rw [if_pos hpe]
      rw [hpp]
      rw [show bracketPortTail f.host.data [] = some (String.mk f.host.data, "", 6)
        from rfl]
      rw [hpe, h6]
    · have hpp : portPart f = ':' :: f.port.data := by
        unfold portPart
        rw [if_neg hpe]
      rw [hpp]
      rw [show bracketPortTail f.host.data (':' :: f.port.data) =
          (if validPortChars f.port.data = true then
            some (String.mk f.host.data, String.mk f.port.data, 6) else none) from rfl]
      rw [if_pos (port_valid hport hpe), h6]
  · -- IPv4: host text verbatim
    have hshape : buildHostPart f = f.host.data := by
      unfold buildHostPart
      rw [if_neg (by rw [h4]; decide), if_pos h4]
    have hhd : ∀ t, buildHostPart f ++ portPart f ≠ '[' :: t := by
      intro t hcontra
      have hm : '[' ∈ buildHostPart f ++ portPart f := by
        rw [hcontra]
        exact List.mem_cons_self _ _
      rcases List.mem_append.mp hm with hm2 | hm2
      · rw [hshape] at hm2
        rcases isIPv4Chars_mem hv hm2 with hd | hd
        · exact absurd hd (by decide)
        · exact absurd hd (by decide)
      · rcases mem_portPart hport hm2 with hd | hd
        · cases hd
        · exact absurd hd (by decide)
    rw [parseHostPort_not_bracket hhd, hshape]
    have hnc : ':' ∉ f.host.data := by
      intro hm
      rcases isIPv4Chars_mem hv hm with hd | hd
      · exact absurd hd (by decide)
      · cases hd
    by_cases hpe : f.port = ""
    · have hpp : portPart f = [] := by
        unfold portPart
        rw [if_pos hpe]
      rw [hpp, List.append_nil]
      rw [plainHostPort_split_none _ (splitAtLast_not_mem ':' f.host.data hnc)]
      rw [show classifyHostPort f.host.data [] = classifyHostPort f.host.data []
        from rfl]
      rw [classifyHostPort_v4 hv [] validPortChars_nil]
      rw [hpe, h4]
    · have hpp : portPart f = ':' :: f.port.data := by
        unfold portPart
        rw [if_neg hpe]
      rw [hpp]
      rw [plainHostPort_split_some _ f.host.data f.port.data
        (splitAtLast_append ':' f.host.data f.port.data (port_no_colon hport hpe))]
      rw [classifyHostPort_v4 hv f.port.data (port_valid hport hpe)]
      rw [h4]
  · -- registered name: encoded text
    have hshape : buildHostPart f = percentEncode hostAllow f.host.data := by
      unfold buildHostPart
      rw [if_neg (by rw [h0]; decide), if_neg (by rw [h0]; decide)]
    have hhd : ∀ t, buildHostPart f ++ portPart f ≠ '[' :: t := by
      intro t hcontra
      have hm : '[' ∈ buildHostPart f ++ portPart f := by
        rw [hcontra]
        exact List.mem_cons_self _ _
      rcases List.mem_append.mp hm with hm2 | hm2
      · rw [hshape] at hm2
        exact mem_percentEncode_ne hm2 '[' (by decide) (by decide) rfl
      · rcases mem_portPart hport hm2 with hd | hd
        · cases hd
        · exact absurd hd (by decide)
    rw [parseHostPort_not_bracket hhd, hshape]
    have hnc : ':' ∉ percentEncode hostAllow f.host.data := by
      intro hm
      exact mem_percentEncode_ne hm ':' (by decide) (by decide) rfl
    by_cases hpe : f.port = ""
    · have hpp : portPart f = [] := by
        unfold portPart
        rw [if_pos hpe]
      rw [hpp, List.append_nil]
      rw [plainHostPort_split_none _ (splitAtLast_not_mem ':' _ hnc)]
      rw [classifyHostPort_name hbyte hv [] validPortChars_nil]
      rw [hpe, h0]
    · have hpp : portPart f = ':' :: f.port.data := by
        unfold portPart
        rw [if_neg hpe]
      rw [hpp]
      rw [plainHostPort_split_some _ _ f.port.data
        (splitAtLast_append ':' _ f.port.data (port_no_colon hport hpe))]
      rw [classifyHostPort_name hbyte hv f.port.data (port_valid hport hpe)]
      rw [h0]

/-- Re-parsing the whole built authority recovers user_info, host, port and
the IP-version tag. -/
theorem parseAuthority_build {f : Fields} (hW : WFields f)
    (hauth : authPresent f = true) :
    parseAuthority (authChars f) = some ⟨f.user, f.host, f.port, f.ip_v⟩ := by
  have hW2 := hW
  obtain ⟨hbu, hbh, _, _, _, _, hip, _, _, hport⟩ := hW2
  have hhp := parseHostPort_build (hip hauth) hbh hport
  unfold authChars
  by_cases hu : f.user = ""
  · have hup : userPart f = [] := by
      unfold userPart
      rw [if_pos hu]
    rw [hup, List.nil_append]
    rw [parseAuthority_split_none _ (splitAtLast_not_mem '@' _ (authChars_ne_at hW))]
    rw [decodeUserHostPort_eq [] _ [] (f.host, f.port, f.ip_v) percentDecode_nil hhp]
    rw [hu]
  · have hup : userPart f ++ buildHostPart f ++ portPart f =
        percentEncode userAllow f.user.data ++
          '@' :: (buildHostPart f ++ portPart f) := by
      unfold userPart
      rw [if_neg hu]
      simp
    rw [hup]
    rw [parseAuthority_split_some _ _ _
      (splitAtLast_append '@' _ _ (authChars_ne_at hW))]
    rw [decodeUserHostPort_eq _ _ f.user.data (f.host, f.port, f.ip_v)
      (percentDecode_percentEncode userAllow (by decide) f.user.data hbu) hhp]


/-! ## Round-trip analysis: query, fragment and path tail -/

theorem parseQueryToken_step_eq (t vraw : List Char)
    (h : t.dropWhile (fun c => !(c == '=')) = '=' :: vraw) :
    parseQueryToken t =
      (match percentDecode (t.takeWhile (fun c => !(c == '='))), percentDecode vraw with
       | some k, some v => some ⟨String.mk k, String.mk v⟩
       | _, _ => none) := by
  unfold parseQueryToken
  rw [h]
  rfl

theorem parseQueryToken_step_none (t : List Char)
    (h : t.dropWhile (fun c => !(c == '=')) = []) :
    parseQueryToken t =
      (match percentDecode (t.takeWhile (fun c => !(c == '='))) with
       | some k => some ⟨String.mk k, ""⟩
       | none => none) := by
  unfold parseQueryToken
  rw [h]

/-- Re-parsing one built query token recovers the entry (an empty value
serializes without `=` and decodes back to the empty value). -/
theorem parseQueryToken_build {kv : KeyVal} (hk : byteStr kv.m_key)
    (hv : byteStr kv.m_val) : parseQueryToken (buildQueryToken kv) = some kv := by
  obtain ⟨k, v⟩ := kv
  have hkeq : ∀ c ∈ percentEncode queryAllow k.data, (!(c == '=')) = true := by
    intro c hc
    simp [mem_percentEncode_ne hc '=' (by decide) (by decide)]
  by_cases hve : v = ""
  · have htok : buildQueryToken ⟨k, v⟩ = percentEncode queryAllow k.data := by
      unfold buildQueryToken
      rw [if_pos hve, List.append_nil]
    rw [htok]
    rw [parseQueryToken_step_none _ (dropWhile_all_eq _ _ hkeq)]
    rw [takeWhile_all_eq _ _ hkeq]
    rw [percentDecode_percentEncode queryAllow (by decide) k.data hk]
    rw [hve]
  · have htok : buildQueryToken ⟨k, v⟩ =
        percentEncode queryAllow k.data ++ '=' :: percentEncode queryAllow v.data := by
      unfold buildQueryToken
      rw [if_neg hve]
    rw [htok]
    rw [parseQueryToken_step_eq _ (percentEncode queryAllow v.data)
      (dropWhile_stop _ _ _ _ hkeq (by decide))]
    rw [takeWhile_stop _ _ _ _ hkeq (by decide)]
    rw [percentDecode_percentEncode queryAllow (by decide) k.data hk]
    rw [percentDecode_percentEncode queryAllow (by decide) v.data hv]

/-- No built query token contains the separators `&` or `#`. -/
theorem buildQueryToken_ne (kv : KeyVal) (d : Char) (h1 : queryAllow d = false)
    (h2 : ¬ escapeIsh d) (h3 : d ≠ '=') : d ∉ buildQueryToken kv := by
  intro hm
  unfold buildQueryToken at hm
  rcases List.mem_append.mp hm with hm2 | hm2
  · exact mem_percentEncode_ne hm2 d h1 h2 rfl
  · by_cases hve : kv.m_val = ""
    · rw [if_pos hve] at hm2
      cases hm2
    · rw [if_neg hve] at hm2
      rcases List.mem_cons.mp hm2 with rfl | hm3
      · exact h3 rfl
      · exact mem_percentEncode_ne hm3 d h1 h2 rfl

theorem mem_joinSep {d : Char} {ts : List (List Char)} {c : Char}
    (h : c ∈ joinSep d ts) : c = d ∨ ∃ t ∈ ts, c ∈ t := by
  induction ts with
  | nil => cases h
  | cons t rest ih =>
    cases rest with
    | nil => exact Or.inr ⟨t, List.mem_cons_self _ _, h⟩
    | cons u rest2 =>
      rw [show joinSep d (t :: u :: rest2) = t ++ d :: joinSep d (u :: rest2) from rfl] at h
      rcases List.mem_append.mp h with h2 | h2
      · exact Or.inr ⟨t, List.mem_cons_self _ _, h2⟩
      · rcases List.mem_cons.mp h2 with rfl | h3
        · exact Or.inl rfl
        · rcases ih h3 with h4 | ⟨t2, ht2, hct2⟩
          · exact Or.inl h4
          · exact Or.inr ⟨t2, List.mem_cons_of_mem _ ht2, hct2⟩

theorem parseTokens_cons (t : List Char) (ts : List (List Char)) :
    parseTokens (t :: ts) =
      (match parseQueryToken t, parseTokens ts with
       | some kv, some kvs => some (kv :: kvs)
       | _, _ => none) := rfl

theorem parseTokens_build (qs : List KeyVal)
    (hb : ∀ kv ∈ qs, byteStr kv.m_key ∧ byteStr kv.m_val) :
    parseTokens (qs.map buildQueryToken) = some qs := by
  induction qs with
  | nil => rfl
  | cons kv rest ih =>
    have hkv := hb kv (List.mem_cons_self _ _)
    rw [List.map_cons, parseTokens_cons]
    rw [parseQueryToken_build hkv.1 hkv.2]
    rw [ih fun x hx => hb x (List.mem_cons_of_mem _ hx)]

/-- Re-parsing the built query of a non-empty sequence recovers the
sequence, order and duplicates included. -/
theorem parseQueryChars_build (qs : List KeyVal) (hne : qs ≠ [])
    (hb : ∀ kv ∈ qs, byteStr kv.m_key ∧ byteStr kv.m_val) :
    parseQueryChars (buildQueryChars qs) = some qs := by
  unfold parseQueryChars buildQueryChars
  rw [splitSep_joinSep '&' (qs.map buildQueryToken) (by simp [hne])
    (fun t ht => by
      obtain ⟨kv, _, rfl⟩ := List.mem_map.mp ht
      exact buildQueryToken_ne kv '&' (by decide) (by decide) (by decide))]
  exact parseTokens_build qs hb

theorem parseFrag_cons (fr : List Char) :
    parseFrag ('#' :: fr) = (percentDecode fr).map String.mk := rfl

theorem parseFrag_build (f : Fields) (hbf : byteStr f.fragment) :
    parseFrag (fragPart f) = some f.fragment := by
  unfold fragPart
  by_cases hfe : f.fragment = ""
  · rw [if_pos hfe, hfe]
    rfl
  · rw [if_neg hfe, parseFrag_cons]
    rw [percentDecode_percentEncode fragAllow (by decide) f.fragment.data hbf]
    rfl

theorem finishFields_eq (sch : String) (ap : AuthParts) (path : String)
    (qs : List KeyVal) (rest4 : List Char) (frag : String)
    (hf : parseFrag rest4 = some frag) :
    finishFields sch ap path (some qs) rest4 =
      some ⟨sch, ap.user, ap.host, ap.port, path, qs, frag, ap.ip_v⟩ := by
  unfold finishFields
  rw [hf]

theorem parseAfterPath_query (sch : String) (ap : AuthParts) (path : String)
    (r : List Char) :
    parseAfterPath sch ap path ('?' :: r) =
      finishFields sch ap path
        (parseQueryChars (r.takeWhile (fun c => !(c == '#'))))
        (r.dropWhile (fun c => !(c == '#'))) := rfl

theorem parseAfterPath_hash (sch : String) (ap : AuthParts) (path : String)
    (r : List Char) :
    parseAfterPath sch ap path ('#' :: r) =
      finishFields sch ap path (some []) ('#' :: r) := rfl

theorem parseAfterPath_nil (sch : String) (ap : AuthParts) (path : String) :
    parseAfterPath sch ap path [] = finishFields sch ap path (some []) [] := rfl

theorem parseTail_step (sch : String) (ap : AuthParts) (rest2 : List Char)
    (pathd : List Char)
    (h : percentDecode (rest2.takeWhile (fun c => !(isPQDelim c))) = some pathd) :
    parseTail sch ap rest2 =
      parseAfterPath sch ap (String.mk pathd)
        (rest2.dropWhile (fun c => !(isPQDelim c))) := by
  unfold parseTail
  rw [h]

theorem pathChars_no_pq {f : Fields} : ∀ c ∈ pathChars f, (!(isPQDelim c)) = true := by
  intro c hc
  unfold pathChars at hc
  rcases mem_percentEncode2 hc with h | h
  · have h1 : c ≠ '?' := bool_pred_ne h (by decide)
    have h2 : c ≠ '#' := bool_pred_ne h (by decide)
    simp [isPQDelim, h1, h2]
  · have h1 : c ≠ '?' := escapeIsh_ne h (by decide)
    have h2 : c ≠ '#' := escapeIsh_ne h (by decide)
    simp [isPQDelim, h1, h2]

/-- The query/fragment tail either is empty or starts with `?` or `#`. -/
theorem qfHead (f : Fields) :
    queryPart f ++ fragPart f = [] ∨
      ∃ c rest, queryPart f ++ fragPart f = c :: rest ∧ (!(isPQDelim c)) = false := by
  rcases hq : f.query with _ | ⟨kv, qs⟩
  · have hqp : queryPart f = [] := by
      unfold queryPart
      rw [hq]
    rw [hqp, List.nil_append]
    by_cases hfe : f.fragment = ""
    · left
      unfold fragPart
      rw [if_pos hfe]
    · right
      refine ⟨'#', percentEncode fragAllow f.fragment.data, ?_, by decide⟩
      unfold fragPart
      rw [if_neg hfe]
  · right
    have hqp : queryPart f = '?' :: buildQueryChars (kv :: qs) := by
      unfold queryPart
      rw [hq]
    rw [hqp]
    exact ⟨'?', buildQueryChars (kv :: qs) ++ fragPart f, by simp, by decide⟩

/-- Re-parsing the built path/query/fragment remainder recovers path, query
and fragment. -/
theorem parseTail_build {f : Fields} (hW : WFields f) (ap : AuthParts)
    (hu : ap.user = f.user) (hh : ap.host = f.host) (hp : ap.port = f.port)
    (hi : ap.ip_v = f.ip_v) :
    parseTail f.scheme ap (pathChars f ++ (queryPart f ++ fragPart f)) = some f := by
  obtain ⟨_, _, hbp, hbf, hbq, _, _, _, _, _⟩ := hW
  obtain ⟨htw, hdw⟩ := takeWhile_exact (fun c => !(isPQDelim c)) (pathChars f)
    (queryPart f ++ fragPart f) pathChars_no_pq (qfHead f)
  rw [parseTail_step _ _ _ f.path.data
    (by rw [htw]; exact percentDecode_percentEncode pathAllow (by decide) f.path.data hbp)]
  rw [hdw]
  have heta : (String.mk f.path.data) = f.path := rfl
  rw [heta]
  rcases hq : f.query with _ | ⟨kv, qs⟩
  · have hqp : queryPart f = [] := by
      unfold queryPart
      rw [hq]
    rw [hqp, List.nil_append]
    by_cases hfe : f.fragment = ""
    · have hfp : fragPart f = [] := by
        unfold fragPart
        rw [if_pos hfe]
      rw [hfp, parseAfterPath_nil]
      rw [finishFields_eq _ _ _ _ _ f.fragment (by rw [hfe]; rfl)]
      rw [hu, hh, hp, hi, ← hq]
    · have hfp : fragPart f = '#' :: percentEncode fragAllow f.fragment.data := by
        unfold fragPart
        rw [if_neg hfe]
      rw [hfp, parseAfterPath_hash]
      rw [finishFields_eq _ _ _ _ _ f.fragment
        (by have := parseFrag_build f hbf; rw [hfp] at this; exact this)]
      rw [hu, hh, hp, hi, ← hq]
  · have hqp : queryPart f = '?' :: buildQueryChars f.query := by
      unfold queryPart
      rw [hq]
    rw [hqp, List.cons_append, parseAfterPath_query]
    have hnoh : ∀ c ∈ buildQueryChars f.query, (!(c == '#')) = true := by
      intro c hc
      unfold buildQueryChars at hc
      rcases mem_joinSep hc with rfl | ⟨t, ht, hct⟩
      · decide
      · obtain ⟨kv2, _, rfl⟩ := List.mem_map.mp ht
        have hne := buildQueryToken_ne kv2 '#' (by decide) (by decide) (by decide)
        have hcne : c ≠ '#' := fun he => hne (he ▸ hct)
        simp [hcne]
    obtain ⟨htw2, hdw2⟩ := takeWhile_exact (fun c => !(c == '#'))
      (buildQueryChars f.query) (fragPart f) hnoh
      (by
        by_cases hfe : f.fragment = ""
        · left
          unfold fragPart
          rw [if_pos hfe]
        · right
          refine ⟨'#', percentEncode fragAllow f.fragment.data, ?_, by decide⟩
          unfold fragPart
          rw [if_neg hfe])
    rw [htw2, hdw2]
    rw [parseQueryChars_build f.query (by rw [hq]; simp) hbq]
    rw [finishFields_eq _ _ _ _ _ f.fragment (parseFrag_build f hbf)]
    rw [hu, hh, hp, hi]

/-! ## Round-trip analysis: assembling the whole parse of the built text -/

theorem parseUrl_auth (s : String) (sch rest : List Char) (ap : AuthParts)
    (h : splitScheme s.data = (sch, rest)) (hss : startsSlashSlash rest = true)
    (hpa : parseAuthority ((rest.drop 2).takeWhile (fun c => !(isAuthDelim c))) = some ap) :
    parseUrl s =
      parseTail (String.mk sch) ap ((rest.drop 2).dropWhile (fun c => !(isAuthDelim c))) := by
  unfold parseUrl
  simp only [h, hss]
  rw [hpa]
  simp

theorem parseUrl_noauth (s : String) (sch rest : List Char)
    (h : splitScheme s.data = (sch, rest)) (hss : startsSlashSlash rest = false) :
    parseUrl s = parseTail (String.mk sch) ⟨"", "", "", -1⟩ rest := by
  unfold parseUrl
  simp only [h, hss]
  simp

/-- Under `WFields` every build guard passes. -/
theorem buildUrl_eq {f : Fields} (hW : WFields f) :
    buildUrl f = some (String.mk (buildChars f)) := by
  obtain ⟨_, _, _, _, _, _, hip, hna, hpath, hport⟩ := hW
  unfold buildUrl
  rw [if_neg, if_neg, if_neg, if_neg]
  · rintro ⟨hauth, hpne, hns⟩
    rcases hpath hauth with hpe | hps
    · exact hpne hpe
    · rw [hps] at hns
      cases hns
  · rintro ⟨hpne, hpv⟩
    rcases hport with hpe | hpd
    · exact hpne hpe
    · rw [port_valid (Or.inr hpd) hpne] at hpv
      cases hpv
  · rintro ⟨h4, hv4⟩
    by_cases hauth : authPresent f = true
    · rcases hip hauth with ⟨h6, _⟩ | ⟨_, hv⟩ | ⟨h0, _⟩
      · rw [h4] at h6
        cases h6
      · rw [hv] at hv4
        cases hv4
      · rw [h4] at h0
        cases h0
    · obtain ⟨_, _, _, hm1, _, _⟩ := hna (Bool.eq_false_iff.mpr hauth)
      rw [h4] at hm1
      cases hm1
  · rintro ⟨h6, hv6⟩
    by_cases hauth : authPresent f = true
    · rcases hip hauth with ⟨_, hv⟩ | ⟨h4, _⟩ | ⟨h0, _⟩
      · rw [hv] at hv6
        cases hv6
      · rw [h6] at h4
        cases h4
      · rw [h6] at h0
        cases h0
    · obtain ⟨_, _, _, hm1, _, _⟩ := hna (Bool.eq_false_iff.mpr hauth)
      rw [h6] at hm1
      cases hm1

/-- When an authority is present, the remainder after it is empty or starts
with an authority delimiter. -/
theorem restAuthHead (f : Fields) (hW : WFields f) (hauth : authPresent f = true) :
    pathChars f ++ (queryPart f ++ fragPart f) = [] ∨
      ∃ c r, pathChars f ++ (queryPart f ++ fragPart f) = c :: r ∧
        (!(isAuthDelim c)) = false := by
  obtain ⟨_, _, _, _, _, _, _, _, hpath, _⟩ := hW
  rcases hpath hauth with hpe | hps
  · have hpc : pathChars f = [] := by
      unfold pathChars
      rw [hpe]
      rfl
    rw [hpc, List.nil_append]
    rcases hq : f.query with _ | ⟨kv, qs⟩
    · have hqp : queryPart f = [] := by
        unfold queryPart
        rw [hq]
      rw [hqp, List.nil_append]
      by_cases hfe : f.fragment = ""
      · left
        unfold fragPart
        rw [if_pos hfe]
      · right
        refine ⟨'#', percentEncode fragAllow f.fragment.data, ?_, by decide⟩
        unfold fragPart
        rw [if_neg hfe]
    · right
      have hqp : queryPart f = '?' :: buildQueryChars f.query := by
        unfold queryPart
        rw [hq]
      rw [hqp]
      exact ⟨'?', buildQueryChars f.query ++ fragPart f, by simp, by decide⟩
  · rcases hpd : f.path.data with _ | ⟨c, p2⟩
    · rw [hpd] at hps
      cases hps
    · have hc : c = '/' := by
        rw [hpd] at hps
        unfold startsSlash at hps
        simpa using hps
      right
      have hpc : pathChars f = '/' :: percentEncode pathAllow p2 := by
        unfold pathChars
        rw [hpd, hc]
        simp [percentEncode, percentEncodeChar, pathAllow, isUnreserved, isSubDelim]
      rw [hpc]
      exact ⟨'/', percentEncode pathAllow p2 ++ (queryPart f ++ fragPart f), by simp,
        by decide⟩

/-- The query/fragment tail never makes the scheme scan find a `:` — its
head is already a delimiter other than `:`, or it is empty. -/
theorem qfTail_not_colon (f : Fields) :
    ∀ rest, (queryPart f ++ fragPart f).dropWhile (fun c => !(isSchemeDelim c)) ≠
      ':' :: rest := by
  intro rest h
  rcases hq : f.query with _ | ⟨kv, qs⟩
  · have hqp : queryPart f = [] := by
      unfold queryPart
      rw [hq]
    rw [hqp, List.nil_append] at h
    by_cases hfe : f.fragment = ""
    · have hfp : fragPart f = [] := by
        unfold fragPart
        rw [if_pos hfe]
      rw [hfp] at h
      cases h
    · have hfp : fragPart f = '#' :: percentEncode fragAllow f.fragment.data := by
        unfold fragPart
        rw [if_neg hfe]
      rw [hfp, List.dropWhile_cons, if_neg (by decide)] at h
      injection h with h1 h2
      exact absurd h1 (by decide)
  · have hqp : queryPart f = '?' :: buildQueryChars f.query := by
      unfold queryPart
      rw [hq]
    rw [hqp, List.cons_append, List.dropWhile_cons, if_neg (by decide)] at h
    injection h with h1 h2
    exact absurd h1 (by decide)

theorem startsSlashSlash_iff (l : List Char) :
    startsSlashSlash l = true ↔ ∃ t, l = '/' :: '/' :: t := by
  rcases l with _ | ⟨a, _ | ⟨b, t⟩⟩
  · simp [startsSlashSlash]
  · simp [startsSlashSlash]
  · unfold startsSlashSlash
    simp only [Bool.and_eq_true, beq_iff_eq]
    constructor
    · rintro ⟨rfl, rfl⟩
      exact ⟨t, rfl⟩
    · rintro ⟨t2, he⟩
      injection he with h1 h2
      injection h2 with h2 h3
      exact ⟨h1, h2⟩

/-- The query/fragment tail never starts with `/`. -/
theorem qf_no_slash_head (f : Fields) : ∀ t, queryPart f ++ fragPart f ≠ '/' :: t := by
  intro t h
  rcases hq : f.query with _ | ⟨kv, qs⟩
  · have hqp : queryPart f = [] := by
      unfold queryPart
      rw [hq]
    rw [hqp, List.nil_append] at h
    by_cases hfe : f.fragment = ""
    · have hfp : fragPart f = [] := by
        unfold fragPart
        rw [if_pos hfe]
      rw [hfp] at h
      cases h
    · have hfp : fragPart f = '#' :: percentEncode fragAllow f.fragment.data := by
        unfold fragPart
        rw [if_neg hfe]
      rw [hfp] at h
      injection h with h1 h2
      exact absurd h1 (by decide)
  · have hqp : queryPart f = '?' :: buildQueryChars f.query := by
      unfold queryPart
      rw [hq]
    rw [hqp, List.cons_append] at h
    injection h with h1 h2
    exact absurd h1 (by decide)

/-- Without an authority, the built remainder never starts `//` (forced by
the `WFields` condition on the path). -/
theorem built_rest_no_slashslash (f : Fields)
    (hns : startsSlashSlash f.path.data = false) :
    startsSlashSlash (pathChars f ++ (queryPart f ++ fragPart f)) = false := by
  by_cases h : startsSlashSlash (pathChars f ++ (queryPart f ++ fragPart f)) = true
  case neg => exact Bool.eq_false_iff.mpr h
  exfalso
  obtain ⟨t, he⟩ := (startsSlashSlash_iff _).mp h
  rcases hpd : f.path.data with _ | ⟨c, p2⟩
  · have hpc : pathChars f = [] := by
      unfold pathChars
      rw [hpd]
      rfl
    rw [hpc, List.nil_append] at he
    exact qf_no_slash_head f _ he
  · by_cases hac : pathAllow c
    · have hpc : pathChars f = c :: percentEncode pathAllow p2 := by
        unfold pathChars
        rw [hpd]
        simp [percentEncode, percentEncodeChar, hac]
      rw [hpc, List.cons_append] at he
      injection he with h1 h2
      subst h1
      rcases hp2 : p2 with _ | ⟨c2, p3⟩
      · rw [hp2] at h2
        simp only [percentEncode, List.nil_append] at h2
        exact qf_no_slash_head f _ h2
      · by_cases hac2 : pathAllow c2
        · have henc2 : percentEncode pathAllow p2 = c2 :: percentEncode pathAllow p3 := by
            rw [hp2]
            simp [percentEncode, percentEncodeChar, hac2]
          rw [henc2, List.cons_append] at h2
          injection h2 with h3 h4
          subst h3
          rw [hpd, hp2] at hns
          have : startsSlashSlash ('/' :: '/' :: p3) = true := rfl
          rw [this] at hns
          cases hns
        · have henc2 : percentEncode pathAllow p2 =
              '%' :: hexDigitChar (c2.toNat / 16 % 16) :: hexDigitChar (c2.toNat % 16) ::
                percentEncode pathAllow p3 := by
            rw [hp2]
            simp [percentEncode, percentEncodeChar, hac2]
          rw [henc2, List.cons_append] at h2
          injection h2 with h3 h4
          exact absurd h3 (by decide)
    · have hpc : pathChars f =
          '%' :: hexDigitChar (c.toNat / 16 % 16) :: hexDigitChar (c.toNat % 16) ::
            percentEncode pathAllow p2 := by
        unfold pathChars
        rw [hpd]
        simp [percentEncode, percentEncodeChar, hac]
      rw [hpc, List.cons_append] at he
      injection he with h1 h2
      exact absurd h1 (by decide)

/-- The central round-trip theorem: under `WFields`, re-parsing the built
text recovers the field set exactly. -/
theorem parseUrl_build {f : Fields} (hW : WFields f) :
    parseUrl (String.mk (buildChars f)) = some f := by
  have hW2 := hW
  obtain ⟨hbu, hbh, hbp, hbf, hbq, hsch, hip, hna, hpath, hport⟩ := hW2
  have hdata : (String.mk (buildChars f)).data = buildChars f := rfl
  by_cases hauth : authPresent f = true
  · -- authority present
    have hapart : authorityPart f = '/' :: '/' :: authChars f := by
      unfold authorityPart
      rw [if_pos hauth]
    obtain ⟨htwA, hdwA⟩ := takeWhile_exact (fun c => !(isAuthDelim c)) (authChars f)
      (pathChars f ++ (queryPart f ++ fragPart f))
      (fun c hc => by simp [authChars_not_authDelim hW c hc]) (restAuthHead f hW hauth)
    by_cases hse : f.scheme = ""
    · have hshape : buildChars f =
          '/' :: '/' :: (authChars f ++ (pathChars f ++ (queryPart f ++ fragPart f))) := by
        unfold buildChars schemePart
        rw [if_pos hse, hapart]
        simp [List.append_assoc]
      rw [parseUrl_auth _ [] (buildChars f) ⟨f.user, f.host, f.port, f.ip_v⟩
        (by rw [hdata]; rw [show splitScheme (buildChars f) = ([], buildChars f) from by
          rw [hshape]; exact splitScheme_slash _])
        (by rw [hshape]; rfl)
        (by
          rw [hshape]
          rw [show List.drop 2
            ('/' :: '/' :: (authChars f ++ (pathChars f ++ (queryPart f ++ fragPart f)))) =
            authChars f ++ (pathChars f ++ (queryPart f ++ fragPart f)) from rfl]
          rw [htwA]
          exact parseAuthority_build hW hauth)]
      rw [hshape]
      rw [show List.drop 2
        ('/' :: '/' :: (authChars f ++ (pathChars f ++ (queryPart f ++ fragPart f)))) =
        authChars f ++ (pathChars f ++ (queryPart f ++ fragPart f)) from rfl]
      rw [hdwA]
      rw [show (String.mk [] : String) = f.scheme from by rw [hse]]
      exact parseTail_build hW _ rfl rfl rfl rfl
    · have hv : validSchemeChars f.scheme.data = true := by
        rcases hsch with h | h
        · exact absurd h hse
        · exact h
      have hshape : buildChars f = f.scheme.data ++ ':' ::
          ('/' :: '/' :: (authChars f ++ (pathChars f ++ (queryPart f ++ fragPart f)))) := by
        unfold buildChars schemePart
        rw [if_neg hse, hapart]
        simp [List.append_assoc]
      rw [parseUrl_auth _ f.scheme.data
        ('/' :: '/' :: (authChars f ++ (pathChars f ++ (queryPart f ++ fragPart f))))
        ⟨f.user, f.host, f.port, f.ip_v⟩
        (by rw [hdata, hshape]; exact splitScheme_valid _ _ hv)
        rfl
        (by
          rw [show List.drop 2
            ('/' :: '/' :: (authChars f ++ (pathChars f ++ (queryPart f ++ fragPart f)))) =
            authChars f ++ (pathChars f ++ (queryPart f ++ fragPart f)) from rfl]
          rw [htwA]
          exact parseAuthority_build hW hauth)]
      rw [show List.drop 2
        ('/' :: '/' :: (authChars f ++ (pathChars f ++ (queryPart f ++ fragPart f)))) =
        authChars f ++ (pathChars f ++ (queryPart f ++ fragPart f)) from rfl]
      rw [hdwA]
      rw [show String.mk f.scheme.data = f.scheme from rfl]
      exact parseTail_build hW _ rfl rfl rfl rfl
  · -- no authority
    have hf : authPresent f = false := Bool.eq_false_iff.mpr hauth
    obtain ⟨hhost, huser, hporte, hipv, hnss, hcol⟩ := hna hf
    have hapart : authorityPart f = [] := by
      unfold authorityPart
      rw [hf]
      rfl
    by_cases hse : f.scheme = ""
    · have hshape : buildChars f = pathChars f ++ (queryPart f ++ fragPart f) := by
        unfold buildChars schemePart
        rw [if_pos hse, hapart]
        simp [List.append_assoc]
      have hsplit : splitScheme (buildChars f) = ([], buildChars f) := by
        apply splitScheme_not_colon
        rw [hshape]
        exact encPath_dropWhile_not_colon f.path.data (queryPart f ++ fragPart f)
          (hcol hse) (qfTail_not_colon f)
      rw [parseUrl_noauth _ [] (buildChars f) (by rw [hdata]; exact hsplit)
        (by rw [hshape]; exact built_rest_no_slashslash f hnss)]
      rw [hshape]
      rw [show (String.mk [] : String) = f.scheme from by rw [hse]]
      exact parseTail_build hW _ huser.symm hhost.symm hporte.symm hipv.symm
    · have hv : validSchemeChars f.scheme.data = true := by
        rcases hsch with h | h
        · exact absurd h hse
        · exact h
      have hshape : buildChars f = f.scheme.data ++ ':' ::
          (pathChars f ++ (queryPart f ++ fragPart f)) := by
        unfold buildChars schemePart
        rw [if_neg hse, hapart]
        simp [List.append_assoc]
      rw [parseUrl_noauth _ f.scheme.data (pathChars f ++ (queryPart f ++ fragPart f))
        (by rw [hdata, hshape]; exact splitScheme_valid _ _ hv)
        (built_rest_no_slashslash f hnss)]
      rw [show String.mk f.scheme.data = f.scheme from rfl]
      exact parseTail_build hW _ huser.symm hhost.symm hporte.symm hipv.symm

/-! ## Claim C3 -/

/-- C3 is false as stated: the relative reference `"a%3Ab"` is
syntactically valid and parses to the field set with empty scheme and path
`"a:b"`; the builder serializes that field set as `"a:b"` (`:` is allowed
unescaped in a path), and re-parsing `"a:b"` classifies `a` as a scheme —
a structurally different field set. -/
theorem claim_C3_counterexample :
    parseUrl "a%3Ab" = some ⟨"", "", "", "", "a:b", [], "", -1⟩ ∧
    buildUrl ⟨"", "", "", "", "a:b", [], "", -1⟩ = some "a:b" ∧
    parseUrl "a:b" = some ⟨"a", "", "", "", "b", [], "", -1⟩ ∧
    (⟨"a", "", "", "", "b", [], "", -1⟩ : Fields) ≠ ⟨"", "", "", "", "a:b", [], "", -1⟩ := by
  decide

/-- C3 (amended): round-trip stability holds for every parsed field set
that is well-formed for re-serialization (`WFields`): byte-valued
components; a valid or empty scheme; host, IP-version tag and port
consistent when an authority is present; no authority implies empty host,
user, port, an undefined IP tag, a path not starting `//` and — for a
scheme-less reference — no `:` in the first path segment.  For such field
sets the build succeeds and re-parsing the built text yields a field set
structurally equal to the one parsed directly.  Outside `WFields` the
round trip can fail, as the counterexample shows. -/
theorem claim_C3 (U : String) (f : Fields) (_hU : parseUrl U = some f)
    (hw : WFields f) : ∃ s : String, buildUrl f = some s ∧ parseUrl s = some f :=
  ⟨String.mk (buildChars f), buildUrl_eq hw, parseUrl_build hw⟩

theorem claim_C3_witness :
    ∃ s : String,
      buildUrl ⟨"http", "user", "example.com", "8080", "/a b",
        [⟨"x", "1"⟩, ⟨"y", ""⟩], "frag", 0⟩ = some s ∧
      parseUrl s = some ⟨"http", "user", "example.com", "8080", "/a b",
        [⟨"x", "1"⟩, ⟨"y", ""⟩], "frag", 0⟩ :=
  claim_C3 "http://user@example.com:8080/a%20b?x=1&y=#frag"
    ⟨"http", "user", "example.com", "8080", "/a b", [⟨"x", "1"⟩, ⟨"y", ""⟩], "frag", 0⟩
    (by decide) (by decide)

end CxxUrl
